import Mathlib

/-!
Verification of the build-chain dependency-graph core
(`pkg/cmd/experimental/buildchain/buildchain.go`).

The Go code is shallowly embedded: Go strings are Lean `String`s, Go slices
are Lean `List`s, Go maps are association lists, fallible code returns
`Except`, Go panics are a distinguished error constructor, and the unbounded
recursion of `findRepoDeps` is made total with an explicit fuel parameter
(`none` = fuel exhausted, i.e. the Go recursion has not yet returned at that
depth).  Helpers of this package that are referenced by `buildchain.go` but
whose source file is not available (`split`, `join`, `validDOT`, `setLabel`,
`setTag`, `treeSize`, `buildutil.NameFromImageStream`,
`imageapi.ParseDockerImageReference`) are modelled from the specification and
are marked as such in their doc comments.  The third-party DOT library
(`gographviz`) is an external collaborator and its `String`/`Parse` functions
are abstract parameters of the renderer.
-/

/-! ### Go string helpers -/

/-- `strings.Split` on a single separator character, on the character list of
a Go string.  Matches Go semantics: splitting the empty string yields one
empty field, a trailing separator yields a trailing empty field. -/
def splitChar (sep : Char) : List Char → List (List Char)
  | [] => [[]]
  | c :: cs =>
    match splitChar sep cs with
    | [] => [[c]]
    | r :: rs => if c = sep then [] :: r :: rs else (c :: r) :: rs

/-- `strings.Split(s, sep)` for a one-character separator. -/
def splitOnChar (sep : Char) (s : String) : List String :=
  (splitChar sep s.data).map String.mk

/-- Modelled from the spec: the package's `join` helper produces the canonical
string form `"namespace/name"` of a repository identity. -/
def join (ns nm : String) : String := ns ++ "/" ++ nm

/-- Modelled from the spec: the package's `split` helper decomposes the
canonical `"namespace/name"` form back into its two components and fails on
any string that is not of that shape. -/
def split (s : String) : Except String (String × String) :=
  match splitOnChar '/' s with
  | [ns, nm] => .ok (ns, nm)
  | _ => .error ("invalid image repository " ++ s)

/-! ### Data model (`buildapi.BuildConfig` as consumed by this package) -/

/-- A build trigger; the code only inspects whether `ImageChange` is nil. -/
structure Trigger where
  imageChange : Bool
deriving DecidableEq, Repr

/-- The strategy source reference (`kapi.ObjectReference`): kind, name and
optional namespace. -/
structure FromRef where
  kind : String
  name : String
  ns : String
deriving DecidableEq, Repr

/-- The explicit output destination `Parameters.Output.To`. -/
structure ToRef where
  name : String
  ns : String
deriving DecidableEq, Repr

/-- `Parameters.Output`: an optional explicit destination, an output tag and
a combined docker image reference string. -/
structure BuildOutput where
  To : Option ToRef
  tag : String
  dockerImageReference : String
deriving DecidableEq, Repr

/-- `Parameters` of a build configuration (only `Output` is consumed). -/
structure BuildParameters where
  output : BuildOutput
deriving DecidableEq, Repr

/-- A build configuration as consumed by the core: namespace, name, triggers,
the strategy-derived source reference (`buildutil.GetImageStreamForStrategy`,
whose result the spec describes as a per-configuration datum; it is modelled
as a field), and the output parameters. -/
structure BuildConfig where
  ns : String
  name : String
  triggers : List Trigger
  fromRef : Option FromRef
  parameters : BuildParameters
deriving DecidableEq, Repr

/-- `Edge` — a build-configuration relationship between two nodes. -/
structure Edge where
  fullName : String
  To : String
deriving DecidableEq, Repr

/-- `NewEdge` adds a new edge on a parent node. -/
def NewEdge (fullname target : String) : Edge := ⟨fullname, target⟩

/-- `ImageRepo` — a node of the dependency tree. -/
inductive ImageRepo where
  | mk (fullName : String) (tags : List String) (edges : List Edge)
       (children : List ImageRepo)

def ImageRepo.fullName : ImageRepo → String
  | ⟨f, _, _, _⟩ => f

def ImageRepo.tags : ImageRepo → List String
  | ⟨_, t, _, _⟩ => t

def ImageRepo.edges : ImageRepo → List Edge
  | ⟨_, _, e, _⟩ => e

def ImageRepo.children : ImageRepo → List ImageRepo
  | ⟨_, _, _, c⟩ => c

mutual

/-- Modelled from the spec: `treeSize` (referenced by the command driver but
not in the provided source file) counts the total number of nodes: the root
plus, recursively, all children. -/
def treeSize : ImageRepo → Nat
  | ⟨_, _, _, children⟩ => 1 + treeSizeKids children

/-- Total node count of a forest of children (helper for `treeSize`). -/
def treeSizeKids : List ImageRepo → Nat
  | [] => 0
  | c :: cs => treeSize c + treeSizeKids cs

end

/-! ### `getRepos` — the Repository Catalog Builder -/

/-- Lookup in the association-list model of the Go map
`map[string][]string`; a missing key reads as the empty (nil) slice. -/
def lookupTags (m : List (String × List String)) (k : String) : List String :=
  match m with
  | [] => []
  | (k', ts) :: rest => if k' = k then ts else lookupTags rest k

/-- `avoidDuplicates[repo] = append(avoidDuplicates[repo], tag)` on the
association-list model of the Go map. -/
def appendTag (m : List (String × List String)) (k t : String) :
    List (String × List String) :=
  match m with
  | [] => [(k, [t])]
  | (k', ts) :: rest =>
    if k' = k then (k', ts ++ [t]) :: rest else (k', ts) :: appendTag rest k t

/-- The `uniqueTag` linear scan of `getRepos`: insert the tag only when it is
not already recorded for this repository. -/
def insertTagU (m : List (String × List String)) (k t : String) :
    List (String × List String) :=
  if t ∈ lookupTags m k then m else appendTag m k t

/-- The (configuration, trigger) pairs in the order the nested Go loops
`for cfg { for tr }` visit them. -/
def cfgTrPairs (configs : List BuildConfig) : List (BuildConfig × Trigger) :=
  configs.flatMap (fun cfg => cfg.triggers.map (fun tr => (cfg, tr)))

/-- The body of `getRepos`, one (configuration, trigger) pair at a time.
`none` models the Go index-out-of-range panic at `bits[1]` when an
`ImageStreamTag` source name contains no `":"`. -/
def reposLoop : List (BuildConfig × Trigger) → List (String × List String) →
    Option (List (String × List String))
  | [], m => some m
  | (cfg, tr) :: rest, m =>
    match cfg.fromRef with
    | none => reposLoop rest m
    | some f =>
      if tr.imageChange = true ∧ f.name ≠ "" then
        if f.kind = "ImageStreamTag" then
          match splitChar ':' f.name.data with
          | n0 :: t1 :: _ =>
            let name := String.mk n0
            let tag := String.mk t1
            let repo := if f.ns = "" then join cfg.ns name else join f.ns name
            reposLoop rest (insertTagU m repo tag)
          | _ => none
        else reposLoop rest m
      else reposLoop rest m

/-- `getRepos` — scans the build configurations and produces the mapping from
repository identity to the distinct tags that trigger builds; `none` models a
panic on a malformed `ImageStreamTag` source name. -/
def getRepos (configs : List BuildConfig) :
    Option (List (String × List String)) :=
  reposLoop (cfgTrPairs configs) []

/-! ### `findRepoDeps` — the Dependency Tree Builder -/

/-- The error outcomes of `findRepoDeps`: a failed repository split, a failed
docker-image-reference parse, or a Go panic (index out of range). -/
inductive BErr where
  | splitE (msg : String)
  | parseErr (msg : String)
  | panicErr (msg : String)
deriving DecidableEq, Repr

/-- The qualification test of the `findRepoDeps` loop:
`from != nil && from.Kind == "ImageStreamTag" && tr.ImageChange != nil`. -/
def isQualified (cfg : BuildConfig) (tr : Trigger) : Bool :=
  match cfg.fromRef with
  | some f => f.kind = "ImageStreamTag" && tr.imageChange
  | none => false

/-- Modelled from the spec: the source's matching key, computed the same way
as the root's key `"<namespace>/<name>:<tag>"` (the code delegates to
`buildutil.NameFromImageStream` after defaulting the namespace to the
configuration's own; that helper is not in the provided source).  `none`
models the `bits[1]` index-out-of-range panic when the source name has no
`":"` separator. -/
def srcKey? (cfg : BuildConfig) : Option String :=
  match cfg.fromRef with
  | none => none
  | some f =>
    match splitChar ':' f.name.data with
    | n0 :: t1 :: _ =>
      some ((if f.ns = "" then cfg.ns else f.ns) ++ "/" ++ String.mk n0
            ++ ":" ++ String.mk t1)
    | _ => none

/-- Modelled from the spec: `imageapi.ParseDockerImageReference` decomposes a
combined reference string into a name and a tag (the enclosing code supplies
the namespace itself); a string without exactly one `":"` in its final path
segment, or with an empty name or tag, fails to parse. -/
def parseDockerImageReference (s : String) :
    Except String (String × String) :=
  match splitChar ':' ((splitChar '/' s.data).getLastD []) with
  | [n, t] =>
    if n = [] ∨ t = [] then .error ("invalid docker image reference " ++ s)
    else .ok (String.mk n, String.mk t)
  | _ => .error ("invalid docker image reference " ++ s)

/-- The docker-image-reference fallback branch of the output resolution:
child namespace is the configuration's own namespace. -/
def resolveOutputRef (cfg : BuildConfig) : Except BErr (String × String) :=
  match parseDockerImageReference cfg.parameters.output.dockerImageReference with
  | .error e => .error (.parseErr e)
  | .ok (n, t) => .ok (join cfg.ns n, t)

/-- Output-target resolution of a matching configuration: prefer the explicit
`Output.To` destination when its name is non-empty (namespace defaulting to
the configuration's), otherwise parse the combined reference string.  Returns
the child repository full name and the child tag. -/
def resolveOutput (cfg : BuildConfig) : Except BErr (String × String) :=
  match cfg.parameters.output.To with
  | some t0 =>
    if t0.name ≠ "" then
      .ok (join (if t0.ns ≠ "" then t0.ns else cfg.ns) t0.name,
           cfg.parameters.output.tag)
    else resolveOutputRef cfg
  | none => resolveOutputRef cfg

/-- What one iteration of the `findRepoDeps` loop does with a
(configuration, trigger) pair, before any recursion. -/
inductive StepKind where
  | skip
  | panicK
  | resolveErr (e : BErr)
  | matched (childRepo childTag : String)
deriving DecidableEq, Repr

/-- Classification of one (configuration, trigger) pair against the root's
matching key `k`: skipped, panicking on a malformed source name, matching but
failing output resolution, or matching with a resolved child. -/
def depsStep (k : String) (cfg : BuildConfig) (tr : Trigger) : StepKind :=
  if isQualified cfg tr then
    match srcKey? cfg with
    | none => .panicK
    | some k' =>
      if k' = k then
        match resolveOutput cfg with
        | .error e => .resolveErr e
        | .ok (cr, ct) => .matched cr ct
      else .skip
  else .skip

/-- The child-merge step of `findRepoDeps`: if a child with the same full
name already exists, append the new child's tags onto it and discard the new
node; otherwise append the new child. -/
def mergeChild : List ImageRepo → ImageRepo → List ImageRepo
  | [], c => [c]
  | r :: rs, c =>
    if r.fullName = c.fullName then
      ⟨r.fullName, r.tags ++ c.tags, r.edges, r.children⟩ :: rs
    else r :: mergeChild rs c

/-- Record the edge (unconditionally) and merge the child into the
accumulated root. -/
def addChild (acc : ImageRepo) (edgeFullName : String) (child : ImageRepo) :
    ImageRepo :=
  ⟨acc.fullName, acc.tags, acc.edges ++ [NewEdge edgeFullName child.fullName],
   mergeChild acc.children child⟩

/-- The `findRepoDeps` double loop over (configuration, trigger) pairs; the
recursive call is abstracted as `rec` so the definition is structural.
`none` models a computation that has not returned (fuel exhausted inside
`rec`). -/
def depsLoop (rec : String → String → Option (Except BErr ImageRepo))
    (k : String) : List (BuildConfig × Trigger) → ImageRepo →
    Option (Except BErr ImageRepo)
  | [], acc => some (.ok acc)
  | (cfg, tr) :: rest, acc =>
    match depsStep k cfg tr with
    | .skip => depsLoop rec k rest acc
    | .panicK => some (.error (.panicErr "index out of range"))
    | .resolveErr e => some (.error e)
    | .matched cr ct =>
      match rec cr ct with
      | none => none
      | some (.error e) => some (.error e)
      | some (.ok child) =>
        depsLoop rec k rest (addChild acc (join cfg.ns cfg.name) child)

/-- `findRepoDeps` with an explicit recursion-depth budget: builds the
dependency tree of `repo:tag` over the configuration list.  The Go function
carries no visited set, so its recursion is reproduced verbatim; `none`
means the budget was exhausted before the Go recursion would have returned. -/
def findRepoDeps : Nat → String → String → List BuildConfig →
    Option (Except BErr ImageRepo)
  | 0, _, _, _ => none
  | fuel + 1, repo, tag, configs =>
    match split repo with
    | .error e => some (.error (.splitE e))
    | .ok (ns, name) =>
      depsLoop (fun r t => findRepoDeps fuel r t configs)
        (ns ++ "/" ++ name ++ ":" ++ tag)
        (cfgTrPairs configs)
        ⟨repo, [tag], [], []⟩

/-! ### Specification-side views of the tree-builder loop -/

/-- A (configuration, trigger) pair whose resolved source matches the key
`k` (qualification plus key equality, independent of output resolution). -/
def isMatch (k : String) (cfg : BuildConfig) (tr : Trigger) : Bool :=
  isQualified cfg tr && (srcKey? cfg == some k)

/-- All (configuration, matching trigger) pairs whose resolved source matches
the key `k`, in loop order. -/
def matchingPairs (configs : List BuildConfig) (k : String) :
    List (BuildConfig × Trigger) :=
  (cfgTrPairs configs).filter (fun p => isMatch k p.1 p.2)

/-- The (configuration full name, child repository, child tag) triples
produced by the pairs of `pairsL` that match `k` and resolve successfully. -/
def matchedOutputs (k : String) (pairsL : List (BuildConfig × Trigger)) :
    List (String × String × String) :=
  pairsL.filterMap (fun p =>
    match depsStep k p.1 p.2 with
    | .matched cr ct => some (join p.1.ns p.1.name, cr, ct)
    | _ => none)

/-- The resolved matches of a whole configuration list against key `k`. -/
def matchedChildren (configs : List BuildConfig) (k : String) :
    List (String × String × String) :=
  matchedOutputs k (cfgTrPairs configs)

/-- The root matching key of `repo:tag` (`none` when the repository string is
not of the canonical `"namespace/name"` shape). -/
def keyOf (repo tag : String) : Option String :=
  match split repo with
  | .ok (ns, nm) => some (ns ++ "/" ++ nm ++ ":" ++ tag)
  | .error _ => none

/-- One trigger-chain step: some configuration's matching trigger carries the
tree builder from the node `repo:tag` to the resolved child `cr:ct`. -/
def Steps (configs : List BuildConfig) (repo tag cr ct : String) : Prop :=
  ∃ k cfg tr, keyOf repo tag = some k ∧ cfg ∈ configs ∧ tr ∈ cfg.triggers ∧
    depsStep k cfg tr = .matched cr ct

/-- Every trigger chain starting at `repo:tag` has at most `n` steps. -/
def Bounded (configs : List BuildConfig) : Nat → String → String → Prop
  | 0, repo, tag => ∀ cr ct, ¬ Steps configs repo tag cr ct
  | n + 1, repo, tag =>
    ∀ cr ct, Steps configs repo tag cr ct → Bounded configs n cr ct

/-! ### `validDOT` — identifier sanitization -/

/-- Modelled from the spec: the sanitizing transform behind `validDOT` (not
in the provided source).  Characters legal in the identifier grammar
(alphanumerics) are kept; every other character is replaced by a legal
substitute, an underscore-delimited unary code of its code point, chosen so
that distinct names never collapse to the same identifier. -/
def sanitizeChars : List Char → List Char
  | [] => []
  | c :: cs =>
    if c.isAlphanum then c :: sanitizeChars cs
    else '_' :: (List.replicate c.toNat 'x' ++ '_' :: sanitizeChars cs)

/-- Modelled from the spec: `validDOT` derives a graph-node identifier from a
repository short name by sanitizing every illegal character. -/
def validDOT (s : String) : String := String.mk (sanitizeChars s.data)

/-! ### `dotDump` — the directed-graph renderer -/

/-- Go map assignment `attrs[k] = v` on the association-list model of
`map[string]string`: replace the first binding of `k` or append one. -/
def setAttr (attrs : List (String × String)) (k v : String) :
    List (String × String) :=
  match attrs with
  | [] => [(k, v)]
  | (k', v') :: rest =>
    if k' = k then (k, v) :: rest else (k', v') :: setAttr rest k v

/-- Modelled from the spec: `setTag` (not in the provided source) records a
node tag as an auxiliary attribute; the spec describes the label rule only,
so the tag is stored under its own key, separate from `"label"`. -/
def setTag (tag : String) (attrs : List (String × String)) :
    List (String × String) :=
  setAttr attrs ("tag_" ++ tag) tag

/-- Modelled from the spec: the text of a node or edge label, combining the
short name and the namespace, with the tag embedded when one is supplied. -/
def labelText (name ns tag : String) : String :=
  (if tag = "" then name else name ++ ":" ++ tag) ++ " " ++ ns

/-- Modelled from the spec: `setLabel` (not in the provided source) stores
the label text under the `"label"` attribute key. -/
def setLabel (name ns : String) (attrs : List (String × String))
    (tag : String) : List (String × String) :=
  setAttr attrs "label" (labelText name ns tag)

/-- The state of the `gographviz` graph that `dotDump` mutates: the declared
name/directedness/strictness and the accumulated node and edge statements. -/
structure DotGraph where
  name : String
  dir : Bool
  strict : Bool
  nodes : List (String × List (String × String))
  edges : List (String × String × List (String × String))

/-- `g.AddNode(parentGraph, name, attrs)` (the parent graph name is the
enclosing graph and does not alter the recorded statement). -/
def addNodeG (g : DotGraph) (nodeName : String)
    (attrs : List (String × String)) : DotGraph :=
  { g with nodes := g.nodes ++ [(nodeName, attrs)] }

/-- `g.AddEdge(src, dst, true, attrs)`. -/
def addEdgeG (g : DotGraph) (src dst : String)
    (attrs : List (String × String)) : DotGraph :=
  { g with edges := g.edges ++ [(src, dst, attrs)] }

/-- The inner edge loop of `dotDump`: for every recorded edge whose target is
this child, split both full names, build the edge label and add the edge
from the (already sanitized) root identifier to the sanitized child
identifier. -/
def childEdges (childFullName rootName : String) :
    List Edge → DotGraph → Except String DotGraph
  | [], g => .ok g
  | e :: es, g =>
    if childFullName = e.To then
      match split childFullName with
      | .error err => .error err
      | .ok (_, childName0) =>
        match split e.fullName with
        | .error err => .error err
        | .ok (edgeNs, edgeName0) =>
          childEdges childFullName rootName es
            (addEdgeG g rootName (validDOT childName0)
              (setLabel (validDOT edgeName0) edgeNs [] ""))
    else childEdges childFullName rootName es g

/-- The child loop of `dotDump`: add this child's edges, then recursively
dump the child (its returned string is discarded, its graph and one-shot
flag state are threaded), then continue with the remaining children. -/
def dotKids
    (recD : ImageRepo → DotGraph → Bool →
      Option (Except String (String × DotGraph × Bool))) :
    List ImageRepo → List Edge → String → DotGraph → Bool →
    Option (Except String (DotGraph × Bool))
  | [], _, _, g, fired => some (.ok (g, fired))
  | c :: cs, edges, rootName, g, fired =>
    match childEdges c.fullName rootName edges g with
    | .error e => some (.error e)
    | .ok g1 =>
      match recD c g1 fired with
      | none => none
      | some (.error e) => some (.error e)
      | some (.ok (_, g2, fired2)) => dotKids recD cs edges rootName g2 fired2

/-- `dotDump` with the external DOT library abstracted: `render` is
`g.String()` and `parse` is the success of `dot.Parse`.  The process-wide
`sync.Once` is threaded as the explicit `fired` flag: the closure reading
`root.Tags[0]` runs only on the very first node ever rendered (reading
`Tags[0]` of a tagless first root is the Go index panic, an error here).
After the loops the renderer serializes the graph and fails unless its own
output parses.  The fuel argument makes the recursion structural; `none`
means the budget ran out. -/
def dotDump (render : DotGraph → String) (parse : String → Bool) :
    Nat → ImageRepo → DotGraph → String → Bool →
    Option (Except String (String × DotGraph × Bool))
  | 0, _, _, _, _ => none
  | fuel + 1, root, g, graphName, fired =>
    match split root.fullName with
    | .error e => some (.error e)
    | .ok (rootNs, rootName0) =>
      let attrs0 := root.tags.foldl (fun a t => setTag t a) []
      match (if fired then .ok ("", true) else
              match root.tags with
              | [] => .error "index out of range"
              | t :: _ => .ok (t, true) : Except String (String × Bool)) with
      | .error e => some (.error e)
      | .ok (tag, fired1) =>
        let attrs := setLabel rootName0 rootNs attrs0 tag
        let rootName := validDOT rootName0
        let g1 := addNodeG g rootName attrs
        match dotKids (fun c g' f => dotDump render parse fuel c g' graphName f)
            root.children root.edges rootName g1 fired1 with
        | none => none
        | some (.error e) => some (.error e)
        | some (.ok (g2, fired2)) =>
          let out := render g2
          if parse out then some (.ok (out, g2, fired2))
          else some (.error ("cannot parse DOT output " ++ out))

/-! ### Remaining definitions: attribute lookup, catalog specification,
concrete fixtures -/

/-- Reading a key from the association-list model of a Go string map. -/
def getAttr (attrs : List (String × String)) (k : String) : Option String :=
  match attrs with
  | [] => none
  | (k', v) :: rest => if k' = k then some v else getAttr rest k

/-- A rendered node whose label carries no tag: the node consists of the
sanitized identifier of some short name together with attributes whose
label was written by `setLabel` with the empty tag for that same short
name.  The sanitizer is injective, so the short name is determined by the
node's identifier, and a node whose label embeds a nonempty tag for its
own name never satisfies this (`setLabel_tagged_not_untagged`). -/
def untaggedNode (nd : String × List (String × String)) : Prop :=
  ∃ nm ns attrs0, nd = (validDOT nm, setLabel nm ns attrs0 "")

/-- Membership of a (repository, tag) pair in the catalog mapping. -/
def hasTag (m : List (String × List String)) (r t : String) : Prop :=
  ∃ ts, (r, ts) ∈ m ∧ t ∈ ts

/-- The declarative catalog specification over a pair list: `(r, t)` is
contributed by a pair whose trigger is an image-change trigger, whose source
name is non-empty and of the mutable `ImageStreamTag` kind, splitting as
`name:tag`, with the namespace resolved from the trigger when present and
from the owning configuration otherwise. -/
def ReposSpecP (pairsL : List (BuildConfig × Trigger)) (r t : String) :
    Prop :=
  ∃ p, p ∈ pairsL ∧ ∃ f n0 t1 bs,
    p.1.fromRef = some f ∧ p.2.imageChange = true ∧ f.name ≠ "" ∧
    f.kind = "ImageStreamTag" ∧ splitChar ':' f.name.data = n0 :: t1 :: bs ∧
    t = String.mk t1 ∧
    r = (if f.ns = "" then join p.1.ns (String.mk n0)
         else join f.ns (String.mk n0))

/-- The declarative catalog specification over a configuration list. -/
def ReposSpec (configs : List BuildConfig) (r t : String) : Prop :=
  ReposSpecP (cfgTrPairs configs) r t

/-- Fixture: a configuration in namespace `ns` triggered by `myapp:latest`
with explicit output destination `built` tagged `v1`. -/
def wcfg1 : BuildConfig :=
  { ns := "ns", name := "bc1", triggers := [⟨true⟩],
    fromRef := some ⟨"ImageStreamTag", "myapp:latest", ""⟩,
    parameters := ⟨⟨some ⟨"built", ""⟩, "v1", ""⟩⟩ }

/-- Fixture: like `wcfg1` but named `bc2` with output tag `v2`. -/
def wcfg2 : BuildConfig :=
  { ns := "ns", name := "bc2", triggers := [⟨true⟩],
    fromRef := some ⟨"ImageStreamTag", "myapp:latest", ""⟩,
    parameters := ⟨⟨some ⟨"built", ""⟩, "v2", ""⟩⟩ }

/-- Fixture: a matching configuration whose output is only a combined
reference string, and that string has no `":"` so it fails to parse. -/
def wcfgBadRef : BuildConfig :=
  { ns := "ns", name := "bc3", triggers := [⟨true⟩],
    fromRef := some ⟨"ImageStreamTag", "myapp:latest", ""⟩,
    parameters := ⟨⟨none, "", "badref"⟩⟩ }

/-- Fixture: a configuration building `B` triggered by `A` (half of the
spec's canonical trigger cycle). -/
def cycCfgA : BuildConfig :=
  { ns := "n", name := "cA", triggers := [⟨true⟩],
    fromRef := some ⟨"ImageStreamTag", "A:t", ""⟩,
    parameters := ⟨⟨some ⟨"B", ""⟩, "t", ""⟩⟩ }

/-- Fixture: a configuration building `A` triggered by `B` (the other half
of the spec's canonical trigger cycle). -/
def cycCfgB : BuildConfig :=
  { ns := "n", name := "cB", triggers := [⟨true⟩],
    fromRef := some ⟨"ImageStreamTag", "B:t", ""⟩,
    parameters := ⟨⟨some ⟨"A", ""⟩, "t", ""⟩⟩ }

/-- Fixture: a trivial renderer for the DOT library's `String()`. -/
def wrender : DotGraph → String := fun _ => "digraph g"

/-- Fixture: a parser stub that accepts everything. -/
def wparse : String → Bool := fun _ => true

/-- Fixture: a parser stub that rejects everything. -/
def wparseNever : String → Bool := fun _ => false

/-- Fixture: a single-node tree with one tag. -/
def wtreeA : ImageRepo := ⟨"ns/a", ["v"], [], []⟩

/-- Fixture: a second single-node tree with one tag. -/
def wtreeB : ImageRepo := ⟨"ns/b", ["w"], [], []⟩

/-- Fixture: the empty DOT graph state. -/
def wg0 : DotGraph := ⟨"g", true, false, [], []⟩

/-! ### Unfolding equations and basic facts about the tree-builder loop -/

/-- The tags contributed to the child named `nm` by a list of resolved
matches. -/
def contributedTags (ms : List (String × String × String)) (nm : String) :
    List String :=
  ms.filterMap (fun m => if m.2.1 = nm then some m.2.2 else none)

theorem depsLoop_nil (rec : String → String → Option (Except BErr ImageRepo))
    (k : String) (acc : ImageRepo) :
    depsLoop rec k [] acc = some (.ok acc) := rfl

theorem depsLoop_cons (rec : String → String → Option (Except BErr ImageRepo))
    (k : String) (cfg : BuildConfig) (tr : Trigger)
    (rest : List (BuildConfig × Trigger)) (acc : ImageRepo) :
    depsLoop rec k ((cfg, tr) :: rest) acc =
      match depsStep k cfg tr with
      | .skip => depsLoop rec k rest acc
      | .panicK => some (.error (.panicErr "index out of range"))
      | .resolveErr e => some (.error e)
      | .matched cr ct =>
        match rec cr ct with
        | none => none
        | some (.error e) => some (.error e)
        | some (.ok child) =>
          depsLoop rec k rest (addChild acc (join cfg.ns cfg.name) child) :=
  rfl

theorem depsLoop_cons_skip {k : String} {cfg : BuildConfig} {tr : Trigger}
    (rec : String → String → Option (Except BErr ImageRepo))
    (rest : List (BuildConfig × Trigger)) (acc : ImageRepo)
    (h : depsStep k cfg tr = .skip) :
    depsLoop rec k ((cfg, tr) :: rest) acc = depsLoop rec k rest acc := by
  rw [depsLoop_cons, h]

theorem depsLoop_cons_panic {k : String} {cfg : BuildConfig} {tr : Trigger}
    (rec : String → String → Option (Except BErr ImageRepo))
    (rest : List (BuildConfig × Trigger)) (acc : ImageRepo)
    (h : depsStep k cfg tr = .panicK) :
    depsLoop rec k ((cfg, tr) :: rest) acc =
      some (.error (.panicErr "index out of range")) := by
  rw [depsLoop_cons, h]

theorem depsLoop_cons_resolveErr {k : String} {cfg : BuildConfig}
    {tr : Trigger} {e : BErr}
    (rec : String → String → Option (Except BErr ImageRepo))
    (rest : List (BuildConfig × Trigger)) (acc : ImageRepo)
    (h : depsStep k cfg tr = .resolveErr e) :
    depsLoop rec k ((cfg, tr) :: rest) acc = some (.error e) := by
  rw [depsLoop_cons, h]

theorem depsLoop_cons_matched {k : String} {cfg : BuildConfig} {tr : Trigger}
    {cr ct : String}
    (rec : String → String → Option (Except BErr ImageRepo))
    (rest : List (BuildConfig × Trigger)) (acc : ImageRepo)
    (h : depsStep k cfg tr = .matched cr ct) :
    depsLoop rec k ((cfg, tr) :: rest) acc =
      match rec cr ct with
      | none => none
      | some (.error e) => some (.error e)
      | some (.ok child) =>
        depsLoop rec k rest (addChild acc (join cfg.ns cfg.name) child) := by
  rw [depsLoop_cons, h]

theorem findRepoDeps_zero (repo tag : String) (configs : List BuildConfig) :
    findRepoDeps 0 repo tag configs = none := rfl

theorem findRepoDeps_succ_err {repo : String} {e : String}
    (fuel : Nat) (tag : String) (configs : List BuildConfig)
    (hs : split repo = .error e) :
    findRepoDeps (fuel + 1) repo tag configs = some (.error (.splitE e)) := by
  unfold findRepoDeps
  rw [hs]

theorem findRepoDeps_succ {repo ns nm : String}
    (fuel : Nat) (tag : String) (configs : List BuildConfig)
    (hs : split repo = .ok (ns, nm)) :
    findRepoDeps (fuel + 1) repo tag configs =
      depsLoop (fun r t => findRepoDeps fuel r t configs)
        (ns ++ "/" ++ nm ++ ":" ++ tag) (cfgTrPairs configs)
        ⟨repo, [tag], [], []⟩ := by
  conv_lhs => rw [findRepoDeps]
  rw [hs]

/-- A successful loop run leaves the accumulated root's identity and tags
untouched. -/
theorem depsLoop_ok_fullName_tags
    (rec : String → String → Option (Except BErr ImageRepo)) (k : String) :
    ∀ (pairsL : List (BuildConfig × Trigger)) (acc res : ImageRepo),
      depsLoop rec k pairsL acc = some (.ok res) →
      res.fullName = acc.fullName ∧ res.tags = acc.tags := by
  intro pairsL
  induction pairsL with
  | nil =>
    intro acc res h
    rw [depsLoop_nil] at h
    cases h
    exact ⟨rfl, rfl⟩
  | cons p rest ih =>
    obtain ⟨cfg, tr⟩ := p
    intro acc res h
    cases hstep : depsStep k cfg tr with
    | skip =>
      rw [depsLoop_cons_skip rec rest acc hstep] at h
      exact ih acc res h
    | panicK =>
      rw [depsLoop_cons_panic rec rest acc hstep] at h
      exact absurd h (by simp)
    | resolveErr e =>
      rw [depsLoop_cons_resolveErr rec rest acc hstep] at h
      exact absurd h (by simp)
    | matched cr ct =>
      rw [depsLoop_cons_matched rec rest acc hstep] at h
      cases hrec : rec cr ct with
      | none =>
        rw [hrec] at h
        exact absurd h (by simp)
      | some x =>
        rw [hrec] at h
        cases x with
        | error e => exact absurd h (by simp)
        | ok child =>
          have h2 : depsLoop rec k rest
              (addChild acc (join cfg.ns cfg.name) child) =
              some (.ok res) := h
          have h3 := ih _ res h2
          simpa [addChild, ImageRepo.fullName, ImageRepo.tags] using h3

/-- A successful run of `findRepoDeps` returns a root whose full name is the
requested repository and whose tags are exactly the requested tag. -/
theorem findRepoDeps_ok_basic :
    ∀ (fuel : Nat) (repo tag : String) (configs : List BuildConfig)
      (res : ImageRepo),
      findRepoDeps fuel repo tag configs = some (.ok res) →
      res.fullName = repo ∧ res.tags = [tag] := by
  intro fuel repo tag configs res h
  cases fuel with
  | zero => rw [findRepoDeps_zero] at h; cases h
  | succ n =>
    cases hs : split repo with
    | error e => rw [findRepoDeps_succ_err n tag configs hs] at h; cases h
    | ok p =>
      obtain ⟨ns, nm⟩ := p
      rw [findRepoDeps_succ n tag configs hs] at h
      simpa [ImageRepo.fullName, ImageRepo.tags] using
        depsLoop_ok_fullName_tags _ _ _ _ _ h

theorem matchedOutputs_nil (k : String) : matchedOutputs k [] = [] := rfl

theorem matchedOutputs_cons (k : String) (p : BuildConfig × Trigger)
    (rest : List (BuildConfig × Trigger)) :
    matchedOutputs k (p :: rest) =
      (match depsStep k p.1 p.2 with
        | .matched cr ct => some (join p.1.ns p.1.name, cr, ct)
        | _ => none).toList ++ matchedOutputs k rest := by
  cases hstep : depsStep k p.1 p.2 <;>
    simp [matchedOutputs, List.filterMap_cons, hstep]

/-- A successful loop run records exactly one edge per matched pair, in loop
order: configuration full name to resolved child repository. -/
theorem depsLoop_ok_edges
    (rec : String → String → Option (Except BErr ImageRepo)) (k : String)
    (hrec : ∀ r t x, rec r t = some (.ok x) → x.fullName = r) :
    ∀ (pairsL : List (BuildConfig × Trigger)) (acc res : ImageRepo),
      depsLoop rec k pairsL acc = some (.ok res) →
      res.edges = acc.edges ++
        (matchedOutputs k pairsL).map (fun m => NewEdge m.1 m.2.1) := by
  intro pairsL
  induction pairsL with
  | nil =>
    intro acc res h
    rw [depsLoop_nil] at h
    cases h
    simp [matchedOutputs_nil]
  | cons p rest ih =>
    obtain ⟨cfg, tr⟩ := p
    intro acc res h
    cases hstep : depsStep k cfg tr with
    | skip =>
      rw [depsLoop_cons_skip rec rest acc hstep] at h
      rw [ih acc res h, matchedOutputs_cons, hstep]
      simp
    | panicK =>
      rw [depsLoop_cons_panic rec rest acc hstep] at h
      exact absurd h (by simp)
    | resolveErr e =>
      rw [depsLoop_cons_resolveErr rec rest acc hstep] at h
      exact absurd h (by simp)
    | matched cr ct =>
      rw [depsLoop_cons_matched rec rest acc hstep] at h
      cases hrec2 : rec cr ct with
      | none =>
        rw [hrec2] at h
        exact absurd h (by simp)
      | some x =>
        rw [hrec2] at h
        cases x with
        | error e => exact absurd h (by simp)
        | ok child =>
          have h2 : depsLoop rec k rest
              (addChild acc (join cfg.ns cfg.name) child) =
              some (.ok res) := h
          have h3 := ih _ res h2
          rw [matchedOutputs_cons, hstep]
          rw [h3]
          have hcf : child.fullName = cr := hrec _ _ _ hrec2
          simp [addChild, ImageRepo.edges, hcf, NewEdge]
  
/-- A successful loop run implies no visited pair panicked or failed output
resolution. -/
theorem depsLoop_ok_no_bad
    (rec : String → String → Option (Except BErr ImageRepo)) (k : String) :
    ∀ (pairsL : List (BuildConfig × Trigger)) (acc res : ImageRepo),
      depsLoop rec k pairsL acc = some (.ok res) →
      ∀ p ∈ pairsL, depsStep k p.1 p.2 ≠ .panicK ∧
        ∀ e, depsStep k p.1 p.2 ≠ .resolveErr e := by
  intro pairsL
  induction pairsL with
  | nil => intro acc res h p hp; cases hp
  | cons q rest ih =>
    obtain ⟨cfg, tr⟩ := q
    intro acc res h p hp
    cases hstep : depsStep k cfg tr with
    | skip =>
      rw [depsLoop_cons_skip rec rest acc hstep] at h
      rcases List.mem_cons.mp hp with rfl | hp2
      · exact ⟨by simp [hstep], by simp [hstep]⟩
      · exact ih acc res h p hp2
    | panicK =>
      rw [depsLoop_cons_panic rec rest acc hstep] at h
      exact absurd h (by simp)
    | resolveErr e =>
      rw [depsLoop_cons_resolveErr rec rest acc hstep] at h
      exact absurd h (by simp)
    | matched cr ct =>
      rw [depsLoop_cons_matched rec rest acc hstep] at h
      cases hrec2 : rec cr ct with
      | none =>
        rw [hrec2] at h
        exact absurd h (by simp)
      | some x =>
        rw [hrec2] at h
        cases x with
        | error e => exact absurd h (by simp)
        | ok child =>
          have h2 : depsLoop rec k rest
              (addChild acc (join cfg.ns cfg.name) child) =
              some (.ok res) := h
          rcases List.mem_cons.mp hp with rfl | hp2
          · exact ⟨by simp [hstep], by simp [hstep]⟩
          · exact ih _ res h2 p hp2

/-- When no visited pair does anything, the loop returns the accumulator. -/
theorem depsLoop_all_skip
    (rec : String → String → Option (Except BErr ImageRepo)) (k : String) :
    ∀ (pairsL : List (BuildConfig × Trigger)) (acc : ImageRepo),
      (∀ p ∈ pairsL, depsStep k p.1 p.2 = .skip) →
      depsLoop rec k pairsL acc = some (.ok acc) := by
  intro pairsL
  induction pairsL with
  | nil => intro acc _; exact depsLoop_nil rec k acc
  | cons q rest ih =>
    obtain ⟨cfg, tr⟩ := q
    intro acc hall
    rw [depsLoop_cons_skip rec rest acc (hall (cfg, tr) (by simp))]
    exact ih acc (fun p hp => hall p (List.mem_cons_of_mem _ hp))


/-! ### Merge-step lemmas -/

theorem ImageRepo.fullName_mk (f : String) (t : List String) (e : List Edge)
    (c : List ImageRepo) : ImageRepo.fullName ⟨f, t, e, c⟩ = f := rfl

theorem ImageRepo.tags_mk (f : String) (t : List String) (e : List Edge)
    (c : List ImageRepo) : ImageRepo.tags ⟨f, t, e, c⟩ = t := rfl

theorem ImageRepo.edges_mk (f : String) (t : List String) (e : List Edge)
    (c : List ImageRepo) : ImageRepo.edges ⟨f, t, e, c⟩ = e := rfl

theorem ImageRepo.children_mk (f : String) (t : List String) (e : List Edge)
    (c : List ImageRepo) : ImageRepo.children ⟨f, t, e, c⟩ = c := rfl

theorem mergeChild_nil (c : ImageRepo) : mergeChild [] c = [c] := rfl

theorem mergeChild_cons (r : ImageRepo) (rs : List ImageRepo)
    (c : ImageRepo) :
    mergeChild (r :: rs) c =
      if r.fullName = c.fullName then
        (⟨r.fullName, r.tags ++ c.tags, r.edges, r.children⟩ : ImageRepo) :: rs
      else r :: mergeChild rs c := rfl

theorem mergeChild_of_not_mem (c : ImageRepo) :
    ∀ cs : List ImageRepo, c.fullName ∉ cs.map ImageRepo.fullName →
      mergeChild cs c = cs ++ [c] := by
  intro cs
  induction cs with
  | nil => intro _; rfl
  | cons r rs ih =>
    intro hnm
    have h1 : r.fullName ≠ c.fullName := by
      intro he
      exact hnm (by simp [he])
    rw [mergeChild_cons, if_neg h1, ih (fun hm => hnm (by simp [hm]))]
    rfl

theorem mergeChild_names_of_mem (c : ImageRepo) :
    ∀ cs : List ImageRepo, c.fullName ∈ cs.map ImageRepo.fullName →
      (mergeChild cs c).map ImageRepo.fullName = cs.map ImageRepo.fullName := by
  intro cs
  induction cs with
  | nil => intro hm; cases hm
  | cons r rs ih =>
    intro hm
    by_cases h1 : r.fullName = c.fullName
    · rw [mergeChild_cons, if_pos h1]
      simp [ImageRepo.fullName_mk]
    · have hm2 : c.fullName ∈ rs.map ImageRepo.fullName := by
        rcases List.mem_cons.mp hm with he | hm2
        · exact absurd he.symm h1
        · exact hm2
      rw [mergeChild_cons, if_neg h1]
      simp [ih hm2]

theorem mergeChild_name_mem (c : ImageRepo) (cs : List ImageRepo) :
    c.fullName ∈ (mergeChild cs c).map ImageRepo.fullName := by
  by_cases hm : c.fullName ∈ cs.map ImageRepo.fullName
  · rw [mergeChild_names_of_mem c cs hm]; exact hm
  · rw [mergeChild_of_not_mem c cs hm]; simp

theorem mergeChild_names_mem_iff (c : ImageRepo) (cs : List ImageRepo)
    (nm : String) :
    nm ∈ (mergeChild cs c).map ImageRepo.fullName ↔
      nm ∈ cs.map ImageRepo.fullName ∨ nm = c.fullName := by
  by_cases hm : c.fullName ∈ cs.map ImageRepo.fullName
  · rw [mergeChild_names_of_mem c cs hm]
    constructor
    · exact Or.inl
    · rintro (h | rfl)
      · exact h
      · exact hm
  · rw [mergeChild_of_not_mem c cs hm]
    simp

theorem mergeChild_nodup (c : ImageRepo) (cs : List ImageRepo)
    (hnd : (cs.map ImageRepo.fullName).Nodup) :
    ((mergeChild cs c).map ImageRepo.fullName).Nodup := by
  by_cases hm : c.fullName ∈ cs.map ImageRepo.fullName
  · rw [mergeChild_names_of_mem c cs hm]; exact hnd
  · rw [mergeChild_of_not_mem c cs hm]
    simp only [List.map_append, List.map_cons, List.map_nil]
    exact List.nodup_append.mpr ⟨hnd, by simp, by simpa using hm⟩

/-- Tag shape of the merge result when the child's name is already present:
only the (unique) entry with that name gains the new child's tags. -/
theorem mergeChild_tags_present (c : ImageRepo) (g : String → List String) :
    ∀ cs : List ImageRepo, (cs.map ImageRepo.fullName).Nodup →
      c.fullName ∈ cs.map ImageRepo.fullName →
      (∀ d ∈ cs, d.tags = g d.fullName) →
      ∀ d ∈ mergeChild cs c,
        d.tags = if d.fullName = c.fullName then g d.fullName ++ c.tags
                 else g d.fullName := by
  intro cs
  induction cs with
  | nil => intro _ hm; cases hm
  | cons r rs ih =>
    intro hnd hm htags d hd
    by_cases h1 : r.fullName = c.fullName
    · rw [mergeChild_cons, if_pos h1] at hd
      rcases List.mem_cons.mp hd with rfl | hd2
      · rw [ImageRepo.tags_mk, ImageRepo.fullName_mk, if_pos h1,
          htags r (by simp), h1]
      · have hne : d.fullName ≠ c.fullName := by
          intro he
          have hmem : r.fullName ∈ rs.map ImageRepo.fullName := by
            rw [h1, ← he]
            exact List.mem_map_of_mem _ hd2
          exact (List.nodup_cons.mp hnd).1 hmem
        rw [if_neg hne]
        exact htags d (by simp [hd2])
    · rw [mergeChild_cons, if_neg h1] at hd
      have hm2 : c.fullName ∈ rs.map ImageRepo.fullName := by
        rcases List.mem_cons.mp hm with he | hm2
        · exact absurd he.symm h1
        · exact hm2
      rcases List.mem_cons.mp hd with rfl | hd2
      · rw [if_neg h1]
        exact htags d (by simp)
      · exact ih (List.nodup_cons.mp hnd).2 hm2
          (fun d' hd' => htags d' (by simp [hd'])) d hd2

/-! ### Children invariants of the tree-builder loop -/

theorem contributedTags_nil (nm : String) : contributedTags [] nm = [] := rfl

theorem contributedTags_cons (m : String × String × String)
    (ms : List (String × String × String)) (nm : String) :
    contributedTags (m :: ms) nm =
      if m.2.1 = nm then m.2.2 :: contributedTags ms nm
      else contributedTags ms nm := by
  simp only [contributedTags, List.filterMap_cons]
  split <;> simp_all

/-- Names of the children accumulated by a successful loop run: those of the
accumulator plus the resolved child repositories of the matched pairs. -/
theorem depsLoop_children_names
    (rec : String → String → Option (Except BErr ImageRepo)) (k : String)
    (hrec : ∀ r t x, rec r t = some (.ok x) → x.fullName = r) :
    ∀ (pairsL : List (BuildConfig × Trigger)) (acc res : ImageRepo),
      depsLoop rec k pairsL acc = some (.ok res) →
      ∀ nm, nm ∈ res.children.map ImageRepo.fullName ↔
        nm ∈ acc.children.map ImageRepo.fullName ∨
        nm ∈ (matchedOutputs k pairsL).map (fun m => m.2.1) := by
  intro pairsL
  induction pairsL with
  | nil =>
    intro acc res h nm
    rw [depsLoop_nil] at h
    cases h
    simp [matchedOutputs_nil]
  | cons p rest ih =>
    obtain ⟨cfg, tr⟩ := p
    intro acc res h nm
    cases hstep : depsStep k cfg tr with
    | skip =>
      rw [depsLoop_cons_skip rec rest acc hstep] at h
      rw [ih acc res h nm, matchedOutputs_cons, hstep]
      simp
    | panicK =>
      rw [depsLoop_cons_panic rec rest acc hstep] at h
      exact absurd h (by simp)
    | resolveErr e =>
      rw [depsLoop_cons_resolveErr rec rest acc hstep] at h
      exact absurd h (by simp)
    | matched cr ct =>
      rw [depsLoop_cons_matched rec rest acc hstep] at h
      cases hrec2 : rec cr ct with
      | none =>
        rw [hrec2] at h
        exact absurd h (by simp)
      | some x =>
        rw [hrec2] at h
        cases x with
        | error e => exact absurd h (by simp)
        | ok child =>
          have h2 : depsLoop rec k rest
              (addChild acc (join cfg.ns cfg.name) child) =
              some (.ok res) := h
          have hcf : child.fullName = cr := hrec _ _ _ hrec2
          rw [ih _ res h2 nm, matchedOutputs_cons, hstep]
          simp only [addChild, ImageRepo.children_mk,
            mergeChild_names_mem_iff, hcf, Option.toList_some,
            List.map_cons, List.mem_cons, List.singleton_append]
          tauto

/-- Nodup names and tag accounting for a successful loop run: the children
keep exactly one entry per resolved child repository, whose tags are the
accumulator's contribution followed by the child tag of every matched pair
that resolved to that repository, in loop order. -/
theorem depsLoop_children_tags
    (rec : String → String → Option (Except BErr ImageRepo)) (k : String)
    (hrec : ∀ r t x, rec r t = some (.ok x) →
      x.fullName = r ∧ x.tags = [t]) :
    ∀ (pairsL : List (BuildConfig × Trigger)) (acc res : ImageRepo)
      (g : String → List String),
      depsLoop rec k pairsL acc = some (.ok res) →
      (acc.children.map ImageRepo.fullName).Nodup →
      (∀ c ∈ acc.children, c.tags = g c.fullName) →
      (∀ nm, nm ∉ acc.children.map ImageRepo.fullName → g nm = []) →
      (res.children.map ImageRepo.fullName).Nodup ∧
      ∀ c ∈ res.children,
        c.tags = g c.fullName ++
          contributedTags (matchedOutputs k pairsL) c.fullName := by
  intro pairsL
  induction pairsL with
  | nil =>
    intro acc res g h hnd htags _
    rw [depsLoop_nil] at h
    cases h
    refine ⟨hnd, fun c hc => ?_⟩
    rw [matchedOutputs_nil, contributedTags_nil, List.append_nil]
    exact htags c hc
  | cons p rest ih =>
    obtain ⟨cfg, tr⟩ := p
    intro acc res g h hnd htags hg0
    cases hstep : depsStep k cfg tr with
    | skip =>
      rw [depsLoop_cons_skip rec rest acc hstep] at h
      have hres := ih acc res g h hnd htags hg0
      refine ⟨hres.1, fun c hc => ?_⟩
      rw [matchedOutputs_cons, hstep]
      simpa using hres.2 c hc
    | panicK =>
      rw [depsLoop_cons_panic rec rest acc hstep] at h
      exact absurd h (by simp)
    | resolveErr e =>
      rw [depsLoop_cons_resolveErr rec rest acc hstep] at h
      exact absurd h (by simp)
    | matched cr ct =>
      rw [depsLoop_cons_matched rec rest acc hstep] at h
      cases hrec2 : rec cr ct with
      | none =>
        rw [hrec2] at h
        exact absurd h (by simp)
      | some x =>
        rw [hrec2] at h
        cases x with
        | error e => exact absurd h (by simp)
        | ok child =>
          have h2 : depsLoop rec k rest
              (addChild acc (join cfg.ns cfg.name) child) =
              some (.ok res) := h
          obtain ⟨hcf, hct⟩ := hrec _ _ _ hrec2
          -- the updated ghost: the entry named `cr` gains the tag `ct`
          have hacc' : ∀ c ∈ (addChild acc (join cfg.ns cfg.name)
              child).children,
              c.tags = (fun nm => if nm = cr then g nm ++ [ct] else g nm)
                c.fullName := by
            simp only [addChild, ImageRepo.children_mk]
            by_cases hm : child.fullName ∈
                acc.children.map ImageRepo.fullName
            · intro c hc
              have := mergeChild_tags_present child g acc.children hnd hm
                htags c hc
              rw [this, hcf, hct]
            · rw [mergeChild_of_not_mem child acc.children hm]
              intro c hc
              rcases List.mem_append.mp hc with hc2 | hc2
              · have hne : c.fullName ≠ cr := by
                  intro he
                  rw [← hcf] at he
                  exact hm (he ▸ List.mem_map_of_mem _ hc2)
                rw [if_neg hne]
                exact htags c hc2
              · have hcc : c = child := by simpa using hc2
                subst hcc
                rw [hcf, if_pos rfl, hct,
                  hg0 cr (by rw [← hcf]; exact hm), List.nil_append]
          have hnd' : ((addChild acc (join cfg.ns cfg.name)
              child).children.map ImageRepo.fullName).Nodup := by
            simp only [addChild, ImageRepo.children_mk]
            exact mergeChild_nodup child acc.children hnd
          have hg0' : ∀ nm, nm ∉ (addChild acc (join cfg.ns cfg.name)
              child).children.map ImageRepo.fullName →
              (if nm = cr then g nm ++ [ct] else g nm) = [] := by
            simp only [addChild, ImageRepo.children_mk]
            intro nm hnm
            have hne : nm ≠ cr := by
              intro he
              subst he
              rw [← hcf] at hnm
              exact hnm (mergeChild_name_mem child acc.children)
            rw [if_neg hne]
            refine hg0 nm (fun hmem => hnm ?_)
            rw [mergeChild_names_mem_iff]
            exact Or.inl hmem
          have hres := ih _ res _ h2 hnd' hacc' hg0'
          refine ⟨hres.1, fun c hc => ?_⟩
          have := hres.2 c hc
          rw [this, matchedOutputs_cons, hstep]
          simp only [Option.toList_some, List.singleton_append,
            contributedTags_cons]
          by_cases hne : c.fullName = cr
          · rw [if_pos hne, if_pos hne.symm]
            simp
          · rw [if_neg hne, if_neg (fun he => hne he.symm)]

/-! ### Classification bridge lemmas -/

theorem isMatch_true_iff (k : String) (cfg : BuildConfig) (tr : Trigger) :
    isMatch k cfg tr = true ↔
      isQualified cfg tr = true ∧ srcKey? cfg = some k := by
  simp [isMatch]

theorem depsStep_matched_intro {k cr ct : String} {cfg : BuildConfig}
    {tr : Trigger} (hq : isQualified cfg tr = true)
    (hk : srcKey? cfg = some k) (hro : resolveOutput cfg = .ok (cr, ct)) :
    depsStep k cfg tr = .matched cr ct := by
  simp [depsStep, hq, hk, hro]

theorem depsStep_matched_elim {k cr ct : String} {cfg : BuildConfig}
    {tr : Trigger} (h : depsStep k cfg tr = .matched cr ct) :
    isQualified cfg tr = true ∧ srcKey? cfg = some k ∧
      resolveOutput cfg = .ok (cr, ct) := by
  by_cases hq : isQualified cfg tr = true
  · cases hk : srcKey? cfg with
    | none => simp [depsStep, hq, hk] at h
    | some k' =>
      by_cases hkk : k' = k
      · subst hkk
        cases hro : resolveOutput cfg with
        | error e => simp [depsStep, hq, hk, hro] at h
        | ok pr =>
          obtain ⟨cr', ct'⟩ := pr
          simp only [depsStep, hq, if_true, hk, hro, if_pos rfl] at h
          cases h
          exact ⟨hq, rfl, rfl⟩
      · simp [depsStep, hq, hk, hkk] at h
  · simp [depsStep, hq] at h

theorem depsStep_resolveErr_elim {k : String} {e : BErr} {cfg : BuildConfig}
    {tr : Trigger} (h : depsStep k cfg tr = .resolveErr e) :
    isQualified cfg tr = true ∧ srcKey? cfg = some k ∧
      resolveOutput cfg = .error e := by
  by_cases hq : isQualified cfg tr = true
  · cases hk : srcKey? cfg with
    | none => simp [depsStep, hq, hk] at h
    | some k' =>
      by_cases hkk : k' = k
      · subst hkk
        cases hro : resolveOutput cfg with
        | error e' =>
          simp only [depsStep, hq, if_true, hk, hro, if_pos rfl] at h
          cases h
          exact ⟨hq, rfl, rfl⟩
        | ok pr =>
          obtain ⟨cr', ct'⟩ := pr
          simp [depsStep, hq, hk, hro] at h
      · simp [depsStep, hq, hk, hkk] at h
  · simp [depsStep, hq] at h

theorem depsStep_panicK_iff (k : String) (cfg : BuildConfig) (tr : Trigger) :
    depsStep k cfg tr = .panicK ↔
      isQualified cfg tr = true ∧ srcKey? cfg = none := by
  constructor
  · intro h
    by_cases hq : isQualified cfg tr = true
    · cases hk : srcKey? cfg with
      | none => exact ⟨hq, rfl⟩
      | some k' =>
        by_cases hkk : k' = k
        · subst hkk
          cases hro : resolveOutput cfg with
          | error e' => simp [depsStep, hq, hk, hro] at h
          | ok pr =>
            obtain ⟨cr', ct'⟩ := pr
            simp [depsStep, hq, hk, hro] at h
        · simp [depsStep, hq, hk, hkk] at h
    · simp [depsStep, hq] at h
  · intro ⟨hq, hk⟩
    simp [depsStep, hq, hk]

theorem isMatch_of_matched {k cr ct : String} {cfg : BuildConfig}
    {tr : Trigger} (h : depsStep k cfg tr = .matched cr ct) :
    isMatch k cfg tr = true := by
  obtain ⟨hq, hk, _⟩ := depsStep_matched_elim h
  exact (isMatch_true_iff k cfg tr).mpr ⟨hq, hk⟩

theorem isMatch_of_resolveErr {k : String} {e : BErr} {cfg : BuildConfig}
    {tr : Trigger} (h : depsStep k cfg tr = .resolveErr e) :
    isMatch k cfg tr = true := by
  obtain ⟨hq, hk, _⟩ := depsStep_resolveErr_elim h
  exact (isMatch_true_iff k cfg tr).mpr ⟨hq, hk⟩

theorem not_isMatch_of_skip {k : String} {cfg : BuildConfig} {tr : Trigger}
    (h : depsStep k cfg tr = .skip) : isMatch k cfg tr = false := by
  cases hm : isMatch k cfg tr with
  | false => rfl
  | true =>
    obtain ⟨hq, hk⟩ := (isMatch_true_iff k cfg tr).mp hm
    cases hro : resolveOutput cfg with
    | error e' => simp [depsStep, hq, hk, hro] at h
    | ok pr =>
      obtain ⟨cr', ct'⟩ := pr
      simp [depsStep, hq, hk, hro] at h

theorem not_isMatch_of_panicK {k : String} {cfg : BuildConfig} {tr : Trigger}
    (h : depsStep k cfg tr = .panicK) : isMatch k cfg tr = false := by
  obtain ⟨hq, hk⟩ := (depsStep_panicK_iff k cfg tr).mp h
  simp [isMatch, hk]

/-- With no output-resolution failure among the pairs, the resolved matches
are in bijection with the matching pairs. -/
theorem matchedOutputs_length (k : String) :
    ∀ pairsL : List (BuildConfig × Trigger),
      (∀ p ∈ pairsL, ∀ e, depsStep k p.1 p.2 ≠ .resolveErr e) →
      (matchedOutputs k pairsL).length =
        (pairsL.filter (fun p => isMatch k p.1 p.2)).length := by
  intro pairsL
  induction pairsL with
  | nil => intro _; rfl
  | cons p rest ih =>
    intro hok
    have hrest := fun q hq => hok q (List.mem_cons_of_mem _ hq)
    rw [matchedOutputs_cons]
    cases hstep : depsStep k p.1 p.2 with
    | skip =>
      rw [List.filter_cons_of_neg (by simp [not_isMatch_of_skip hstep])]
      simpa using ih hrest
    | panicK =>
      rw [List.filter_cons_of_neg (by simp [not_isMatch_of_panicK hstep])]
      simpa using ih hrest
    | resolveErr e => exact absurd hstep (hok p (by simp) e)
    | matched cr ct =>
      rw [List.filter_cons_of_pos (by simp [isMatch_of_matched hstep])]
      simpa using ih hrest

/-! ### Tree-size facts -/

theorem treeSize_mk (f : String) (t : List String) (e : List Edge)
    (c : List ImageRepo) : treeSize ⟨f, t, e, c⟩ = 1 + treeSizeKids c := by
  simp [treeSize]

theorem treeSizeKids_nil : treeSizeKids [] = 0 := by simp [treeSizeKids]

theorem treeSizeKids_cons (c : ImageRepo) (cs : List ImageRepo) :
    treeSizeKids (c :: cs) = treeSize c + treeSizeKids cs := by
  simp [treeSizeKids]

theorem treeSize_pos (r : ImageRepo) : 1 ≤ treeSize r := by
  cases r
  rw [treeSize_mk]
  omega

theorem treeSize_eq_one_iff (r : ImageRepo) :
    treeSize r = 1 ↔ r.children = [] := by
  cases r with
  | mk f t e c =>
    rw [treeSize_mk, ImageRepo.children_mk]
    cases c with
    | nil => simp [treeSizeKids_nil]
    | cons d ds =>
      rw [treeSizeKids_cons]
      have := treeSize_pos d
      constructor
      · intro h; omega
      · intro h; cases h

/-- In a list whose image under `f` has no duplicates, a member value of the
image is hit by exactly one element. -/
theorem filter_image_eq_one {α β : Type} [DecidableEq β] (f : α → β) :
    ∀ l : List α, (l.map f).Nodup → ∀ b ∈ l.map f,
      (l.filter (fun a => f a == b)).length = 1 := by
  intro l
  induction l with
  | nil => intro _ b hb; cases hb
  | cons a l ih =>
    intro hnd b hb
    rcases List.mem_cons.mp hb with rfl | hb2
    · rw [List.filter_cons_of_pos (by simp)]
      have hzero : l.filter (fun a' => f a' == f a) = [] := by
        rw [List.filter_eq_nil_iff]
        intro a' ha' he
        have heq : f a' = f a := by simpa using he
        refine (List.nodup_cons.mp hnd).1 ?_
        rw [← heq]
        exact List.mem_map_of_mem f ha'
      simp [hzero]
    · have hne : f a ≠ b := by
        intro he
        exact (List.nodup_cons.mp hnd).1 (he ▸ hb2)
      rw [List.filter_cons_of_neg (by simpa using hne)]
      exact ih (List.nodup_cons.mp hnd).2 b hb2

theorem cfgTrPairs_mem (configs : List BuildConfig)
    (p : BuildConfig × Trigger) :
    p ∈ cfgTrPairs configs ↔ p.1 ∈ configs ∧ p.2 ∈ p.1.triggers := by
  obtain ⟨cfg, tr⟩ := p
  simp only [cfgTrPairs, List.mem_flatMap, List.mem_map]
  constructor
  · rintro ⟨cfg', hc, tr', ht, he⟩
    cases he
    exact ⟨hc, ht⟩
  · rintro ⟨hc, ht⟩
    exact ⟨cfg, hc, tr, ht, rfl⟩

/-- C1: in every built node, children are unique by full name, a merged
child's tag sequence collects the child tag of every matching trigger that
resolved to that repository (in loop order, none dropped), and every edge
whose target names a child has that child exactly once among the children. -/
theorem C1_merge_invariant {fuel : Nat} {repo tag ns nm : String}
    {configs : List BuildConfig} {root : ImageRepo}
    (hs : split repo = .ok (ns, nm))
    (h : findRepoDeps fuel repo tag configs = some (.ok root)) :
    (root.children.map ImageRepo.fullName).Nodup ∧
    (∀ c ∈ root.children,
      c.tags = contributedTags
        (matchedChildren configs (ns ++ "/" ++ nm ++ ":" ++ tag))
        c.fullName) ∧
    (∀ e ∈ root.edges, e.To ∈ root.children.map ImageRepo.fullName) ∧
    (∀ e ∈ root.edges,
      (root.children.filter
        (fun c => c.fullName == e.To)).length = 1) := by
  cases fuel with
  | zero => rw [findRepoDeps_zero] at h; cases h
  | succ n =>
    rw [findRepoDeps_succ n tag configs hs] at h
    have hrec : ∀ r t x,
        findRepoDeps n r t configs = some (.ok x) →
        x.fullName = r ∧ x.tags = [t] :=
      fun r t x hx => findRepoDeps_ok_basic n r t configs x hx
    have hrec1 : ∀ r t x,
        findRepoDeps n r t configs = some (.ok x) → x.fullName = r :=
      fun r t x hx => (hrec r t x hx).1
    have hct := depsLoop_children_tags _ _ hrec (cfgTrPairs configs)
      ⟨repo, [tag], [], []⟩ root (fun _ => []) h
      (by rw [ImageRepo.children_mk]; simp)
      (by rw [ImageRepo.children_mk]; intro c hc; cases hc)
      (fun _ _ => rfl)
    refine ⟨hct.1, fun c hc => by simpa [matchedChildren] using hct.2 c hc,
      ?_, ?_⟩
    all_goals
      have hedges := depsLoop_ok_edges _ _ hrec1 (cfgTrPairs configs)
        ⟨repo, [tag], [], []⟩ root h
      rw [ImageRepo.edges_mk, List.nil_append] at hedges
      have hnames := depsLoop_children_names _ _ hrec1 (cfgTrPairs configs)
        ⟨repo, [tag], [], []⟩ root h
      have hmem : ∀ e ∈ root.edges,
          e.To ∈ root.children.map ImageRepo.fullName := by
        intro e he
        rw [hedges] at he
        obtain ⟨m, hm, rfl⟩ := List.mem_map.mp he
        have hTo : (NewEdge m.1 m.2.1).To = m.2.1 := rfl
        rw [hTo, hnames m.2.1]
        exact Or.inr (List.mem_map_of_mem _ hm)
    · exact hmem
    · intro e he
      exact filter_image_eq_one ImageRepo.fullName root.children hct.1
        e.To (hmem e he)

/-- C2: a built node records exactly one edge per (configuration, matching
trigger) pair whose resolved source matched the node's key — the edge list
is the resolved match list verbatim, so its length equals the number of
matching pairs even when several edges target the same child. -/
theorem C2_edge_completeness {fuel : Nat} {repo tag ns nm : String}
    {configs : List BuildConfig} {root : ImageRepo}
    (hs : split repo = .ok (ns, nm))
    (h : findRepoDeps fuel repo tag configs = some (.ok root)) :
    root.edges =
      (matchedChildren configs (ns ++ "/" ++ nm ++ ":" ++ tag)).map
        (fun m => NewEdge m.1 m.2.1) ∧
    root.edges.length =
      (matchingPairs configs (ns ++ "/" ++ nm ++ ":" ++ tag)).length := by
  cases fuel with
  | zero => rw [findRepoDeps_zero] at h; cases h
  | succ n =>
    rw [findRepoDeps_succ n tag configs hs] at h
    have hrec1 : ∀ r t x,
        findRepoDeps n r t configs = some (.ok x) → x.fullName = r :=
      fun r t x hx => (findRepoDeps_ok_basic n r t configs x hx).1
    have hedges := depsLoop_ok_edges _ _ hrec1 (cfgTrPairs configs)
      ⟨repo, [tag], [], []⟩ root h
    rw [ImageRepo.edges_mk, List.nil_append] at hedges
    have hnb := depsLoop_ok_no_bad _ _ (cfgTrPairs configs)
      ⟨repo, [tag], [], []⟩ root h
    refine ⟨hedges, ?_⟩
    rw [hedges, List.length_map]
    exact matchedOutputs_length _ (cfgTrPairs configs)
      (fun p hp e => (hnb p hp).2 e)

/-- C5: if any configuration whose trigger matches the root key expresses
its output only as a combined reference string that fails to parse, the tree
computation can never return a tree — at every recursion budget the result
is an error (or still running), never a success carrying a partial tree. -/
theorem C5_parse_error_fatal {repo tag ns nm msg : String}
    {configs : List BuildConfig} {cfg : BuildConfig} {tr : Trigger}
    (hs : split repo = .ok (ns, nm))
    (hp : (cfg, tr) ∈ cfgTrPairs configs)
    (hq : isQualified cfg tr = true)
    (hk : srcKey? cfg = some (ns ++ "/" ++ nm ++ ":" ++ tag))
    (hto : ∀ t0, cfg.parameters.output.To = some t0 → t0.name = "")
    (he : parseDockerImageReference
      cfg.parameters.output.dockerImageReference = .error msg) :
    ∀ (fuel : Nat) (root : ImageRepo),
      findRepoDeps fuel repo tag configs ≠ some (.ok root) := by
  have hro : resolveOutput cfg = .error (.parseErr msg) := by
    unfold resolveOutput
    cases hTo : cfg.parameters.output.To with
    | none => simp [resolveOutputRef, he]
    | some t0 => simp [hto t0 hTo, resolveOutputRef, he]
  have hstep : depsStep (ns ++ "/" ++ nm ++ ":" ++ tag) cfg tr =
      .resolveErr (.parseErr msg) := by
    simp [depsStep, hq, hk, hro]
  intro fuel root hcontra
  cases fuel with
  | zero => rw [findRepoDeps_zero] at hcontra; cases hcontra
  | succ n =>
    rw [findRepoDeps_succ n tag configs hs] at hcontra
    have hnb := depsLoop_ok_no_bad _ _ (cfgTrPairs configs)
      ⟨repo, [tag], [], []⟩ root hcontra (cfg, tr) hp
    exact hnb.2 (.parseErr msg) hstep

/-- C6: with a well-formed repository string, panic-free qualifying triggers
and a positive budget, the builder returns the single-node tree (root only,
tags `[tag]`, no edges, no children) exactly when no configuration's
resolved trigger source matches the root's key; equivalently, any returned
tree has `treeSize` one exactly in that case. -/
theorem C6_leaf_rule {fuel : Nat} {repo tag ns nm : String}
    {configs : List BuildConfig}
    (hs : split repo = .ok (ns, nm))
    (hnp : ∀ p ∈ cfgTrPairs configs,
      isQualified p.1 p.2 = true → (srcKey? p.1).isSome)
    (hf : 1 ≤ fuel) :
    (findRepoDeps fuel repo tag configs =
        some (.ok (⟨repo, [tag], [], []⟩ : ImageRepo)) ↔
      matchingPairs configs (ns ++ "/" ++ nm ++ ":" ++ tag) = []) ∧
    (∀ root : ImageRepo,
      findRepoDeps fuel repo tag configs = some (.ok root) →
      (treeSize root = 1 ↔
        matchingPairs configs (ns ++ "/" ++ nm ++ ":" ++ tag) = [])) := by
  cases fuel with
  | zero => omega
  | succ n =>
    rw [findRepoDeps_succ n tag configs hs]
    have hrec1 : ∀ r t x,
        findRepoDeps n r t configs = some (.ok x) → x.fullName = r :=
      fun r t x hx => (findRepoDeps_ok_basic n r t configs x hx).1
    -- from a successful run, no matching pair at all
    have hmp_of_ok : ∀ root : ImageRepo,
        depsLoop (fun r t => findRepoDeps n r t configs)
          (ns ++ "/" ++ nm ++ ":" ++ tag) (cfgTrPairs configs)
          ⟨repo, [tag], [], []⟩ = some (.ok root) →
        root.children = [] →
        matchingPairs configs (ns ++ "/" ++ nm ++ ":" ++ tag) = [] := by
      intro root h hch
      have hnames := depsLoop_children_names _ _ hrec1 (cfgTrPairs configs)
        ⟨repo, [tag], [], []⟩ root h
      have hmo_nil : matchedOutputs (ns ++ "/" ++ nm ++ ":" ++ tag)
          (cfgTrPairs configs) = [] := by
        have h1 : (matchedOutputs (ns ++ "/" ++ nm ++ ":" ++ tag)
            (cfgTrPairs configs)).map (fun m => m.2.1) = [] := by
          rw [List.eq_nil_iff_forall_not_mem]
          intro x hx
          have h2 := (hnames x).mpr (Or.inr hx)
          rw [hch] at h2
          simp at h2
        exact List.map_eq_nil_iff.mp h1
      have hnb := depsLoop_ok_no_bad _ _ (cfgTrPairs configs)
        ⟨repo, [tag], [], []⟩ root h
      have hlen := matchedOutputs_length (ns ++ "/" ++ nm ++ ":" ++ tag)
        (cfgTrPairs configs) (fun p hp e => (hnb p hp).2 e)
      rw [hmo_nil] at hlen
      have hzero : (matchingPairs configs
          (ns ++ "/" ++ nm ++ ":" ++ tag)).length = 0 := hlen.symm
      exact List.eq_nil_of_length_eq_zero hzero
    -- with no matching pair, every visited pair is skipped
    have hskip : matchingPairs configs (ns ++ "/" ++ nm ++ ":" ++ tag) = [] →
        ∀ p ∈ cfgTrPairs configs,
          depsStep (ns ++ "/" ++ nm ++ ":" ++ tag) p.1 p.2 = .skip := by
      intro hmp p hp
      have hnm : isMatch (ns ++ "/" ++ nm ++ ":" ++ tag) p.1 p.2 = false := by
        have := List.filter_eq_nil_iff.mp hmp p hp
        simpa using this
      cases hstep : depsStep (ns ++ "/" ++ nm ++ ":" ++ tag) p.1 p.2 with
      | skip => rfl
      | panicK =>
        obtain ⟨hq, hkn⟩ := (depsStep_panicK_iff _ p.1 p.2).mp hstep
        have := hnp p hp hq
        rw [hkn] at this
        cases this
      | resolveErr e =>
        rw [isMatch_of_resolveErr hstep] at hnm
        cases hnm
      | matched cr ct =>
        rw [isMatch_of_matched hstep] at hnm
        cases hnm
    constructor
    · constructor
      · intro h
        exact hmp_of_ok _ h (by rw [ImageRepo.children_mk])
      · intro hmp
        exact depsLoop_all_skip _ _ (cfgTrPairs configs)
          ⟨repo, [tag], [], []⟩ (hskip hmp)
    · intro root h
      constructor
      · intro hsz
        exact hmp_of_ok root h ((treeSize_eq_one_iff root).mp hsz)
      · intro hmp
        have h0 := depsLoop_all_skip
          (fun r t => findRepoDeps n r t configs)
          (ns ++ "/" ++ nm ++ ":" ++ tag) (cfgTrPairs configs)
          ⟨repo, [tag], [], []⟩ (hskip hmp)
        rw [h0] at h
        have hroot : root = ⟨repo, [tag], [], []⟩ := by
          cases h
          rfl
        rw [hroot, treeSize_mk, treeSizeKids_nil]

/-! ### Termination and nontermination of the tree builder -/

theorem keyOf_eq {repo ns nm : String} (hs : split repo = .ok (ns, nm))
    (tag : String) :
    keyOf repo tag = some (ns ++ "/" ++ nm ++ ":" ++ tag) := by
  unfold keyOf
  rw [hs]

/-- The loop returns (successfully or with an error) as soon as every
recursive call it makes returns. -/
theorem depsLoop_isSome
    (rec : String → String → Option (Except BErr ImageRepo)) (k : String) :
    ∀ (pairsL : List (BuildConfig × Trigger)) (acc : ImageRepo),
      (∀ p ∈ pairsL, ∀ cr ct, depsStep k p.1 p.2 = .matched cr ct →
        (rec cr ct).isSome) →
      (depsLoop rec k pairsL acc).isSome := by
  intro pairsL
  induction pairsL with
  | nil => intro acc _; rw [depsLoop_nil]; rfl
  | cons p rest ih =>
    obtain ⟨cfg, tr⟩ := p
    intro acc hall
    have hrest := fun q hq => hall q (List.mem_cons_of_mem _ hq)
    cases hstep : depsStep k cfg tr with
    | skip =>
      rw [depsLoop_cons_skip rec rest acc hstep]
      exact ih acc hrest
    | panicK => rw [depsLoop_cons_panic rec rest acc hstep]; rfl
    | resolveErr e => rw [depsLoop_cons_resolveErr rec rest acc hstep]; rfl
    | matched cr ct =>
      rw [depsLoop_cons_matched rec rest acc hstep]
      have hsome := hall (cfg, tr) (by simp) cr ct hstep
      cases hr : rec cr ct with
      | none => rw [hr] at hsome; cases hsome
      | some x =>
        cases x with
        | error e => rfl
        | ok child => exact ih (addChild acc (join cfg.ns cfg.name) child) hrest

/-- Fuel `n + 1` suffices whenever every trigger chain from the root has at
most `n` steps. -/
theorem findRepoDeps_isSome_of_bounded (configs : List BuildConfig) :
    ∀ (n : Nat) (repo tag : String), Bounded configs n repo tag →
      (findRepoDeps (n + 1) repo tag configs).isSome := by
  intro n
  induction n with
  | zero =>
    intro repo tag hb
    cases hs : split repo with
    | error e => rw [findRepoDeps_succ_err 0 tag configs hs]; rfl
    | ok pr =>
      obtain ⟨ns, nm⟩ := pr
      rw [findRepoDeps_succ 0 tag configs hs]
      apply depsLoop_isSome
      intro p hp cr ct hstep
      have hmem := (cfgTrPairs_mem configs p).mp hp
      exact absurd ⟨ns ++ "/" ++ nm ++ ":" ++ tag, p.1, p.2,
        keyOf_eq hs tag, hmem.1, hmem.2, hstep⟩ (hb cr ct)
  | succ m ih =>
    intro repo tag hb
    cases hs : split repo with
    | error e => rw [findRepoDeps_succ_err (m + 1) tag configs hs]; rfl
    | ok pr =>
      obtain ⟨ns, nm⟩ := pr
      rw [findRepoDeps_succ (m + 1) tag configs hs]
      apply depsLoop_isSome
      intro p hp cr ct hstep
      have hmem := (cfgTrPairs_mem configs p).mp hp
      exact ih cr ct (hb cr ct ⟨ns ++ "/" ++ nm ++ ":" ++ tag, p.1, p.2,
        keyOf_eq hs tag, hmem.1, hmem.2, hstep⟩)

/-- On the spec's canonical two-configuration trigger cycle, the builder
never returns, whatever the recursion budget. -/
theorem findRepoDeps_cycle_none :
    ∀ fuel : Nat,
      findRepoDeps fuel "n/A" "t" [cycCfgA, cycCfgB] = none ∧
      findRepoDeps fuel "n/B" "t" [cycCfgA, cycCfgB] = none := by
  intro fuel
  induction fuel with
  | zero => exact ⟨rfl, rfl⟩
  | succ m ih =>
    constructor
    · rw [findRepoDeps_succ m "t" [cycCfgA, cycCfgB]
        (show split "n/A" = .ok ("n", "A") from rfl)]
      rw [show cfgTrPairs [cycCfgA, cycCfgB] =
        [(cycCfgA, ⟨true⟩), (cycCfgB, ⟨true⟩)] from rfl]
      rw [depsLoop_cons_matched _ _ _
        (show depsStep ("n" ++ "/" ++ "A" ++ ":" ++ "t") cycCfgA ⟨true⟩ =
          .matched "n/B" "t" by decide)]
      simp only [ih.2]
    · rw [findRepoDeps_succ m "t" [cycCfgA, cycCfgB]
        (show split "n/B" = .ok ("n", "B") from rfl)]
      rw [show cfgTrPairs [cycCfgA, cycCfgB] =
        [(cycCfgA, ⟨true⟩), (cycCfgB, ⟨true⟩)] from rfl]
      rw [depsLoop_cons_skip _ _ _
        (show depsStep ("n" ++ "/" ++ "B" ++ ":" ++ "t") cycCfgA ⟨true⟩ =
          .skip by decide)]
      rw [depsLoop_cons_matched _ _ _
        (show depsStep ("n" ++ "/" ++ "B" ++ ":" ++ "t") cycCfgB ⟨true⟩ =
          .matched "n/A" "t" by decide)]
      simp only [ih.1]

/-- C4: the builder returns within recursion depth `n + 1` whenever every
trigger chain from the requested root has at most `n` steps (the depth is
bounded by the longest trigger chain), and on the spec's canonical cyclic
trigger pair the visited-set-free recursion never returns at any depth. -/
theorem C4_termination :
    (∀ (configs : List BuildConfig) (n : Nat) (repo tag : String),
      Bounded configs n repo tag →
      (findRepoDeps (n + 1) repo tag configs).isSome) ∧
    (∀ fuel : Nat,
      findRepoDeps fuel "n/A" "t" [cycCfgA, cycCfgB] = none) :=
  ⟨fun configs => findRepoDeps_isSome_of_bounded configs,
   fun fuel => (findRepoDeps_cycle_none fuel).1⟩

/-- Witness for C4: the single acyclic fixture configuration satisfies the
bound with one chain step, so the builder returns at depth two. -/
theorem C4_termination_witness :
    (findRepoDeps 2 "ns/myapp" "latest" [wcfg1]).isSome := by
  apply C4_termination.1 [wcfg1] 1 "ns/myapp" "latest"
  intro cr ct hsteps
  obtain ⟨k, cfg, tr, hkey, hc, ht, hstep⟩ := hsteps
  have hkval : k = "ns/myapp:latest" := by
    have h0 : keyOf "ns/myapp" "latest" = some "ns/myapp:latest" := by decide
    exact (Option.some.inj (h0.symm.trans hkey)).symm
  subst hkval
  have hcfg : cfg = wcfg1 := by simpa using hc
  subst hcfg
  have htr : tr = ⟨true⟩ := by simpa [wcfg1] using ht
  subst htr
  have hmt : depsStep "ns/myapp:latest" wcfg1 ⟨true⟩ =
      .matched "ns/built" "v1" := by decide
  rw [hmt] at hstep
  cases hstep
  intro cr' ct' hsteps'
  obtain ⟨k', cfg', tr', hkey', hc', ht', hstep'⟩ := hsteps'
  have hkval' : k' = "ns/built:v1" := by
    have h0 : keyOf "ns/built" "v1" = some "ns/built:v1" := by decide
    exact (Option.some.inj (h0.symm.trans hkey')).symm
  subst hkval'
  have hcfg' : cfg' = wcfg1 := by simpa using hc'
  subst hcfg'
  have htr2 : tr' = ⟨true⟩ := by simpa [wcfg1] using ht'
  subst htr2
  have hsk : depsStep "ns/built:v1" wcfg1 ⟨true⟩ = .skip := by decide
  rw [hsk] at hstep'
  cases hstep'

/-! ### Colon-safety of the unguarded source-name indexing -/

theorem splitChar_cons (sep c : Char) (cs : List Char) :
    splitChar sep (c :: cs) =
      match splitChar sep cs with
      | [] => [[c]]
      | r :: rs => if c = sep then [] :: r :: rs else (c :: r) :: rs := rfl

theorem splitChar_ne_nil (sep : Char) :
    ∀ l : List Char, splitChar sep l ≠ [] := by
  intro l
  cases l with
  | nil => simp [splitChar]
  | cons c cs =>
    rw [splitChar_cons]
    cases splitChar sep cs with
    | nil => simp
    | cons r rs =>
      show (if c = sep then [] :: r :: rs else (c :: r) :: rs) ≠ []
      by_cases hc : c = sep
      · rw [if_pos hc]; simp
      · rw [if_neg hc]; simp

/-- A list containing the separator splits into at least two fields. -/
theorem splitChar_two_of_mem (sep : Char) :
    ∀ l : List Char, sep ∈ l →
      ∃ a b rest, splitChar sep l = a :: b :: rest := by
  intro l
  induction l with
  | nil => intro hm; cases hm
  | cons c cs ih =>
    intro hm
    rw [splitChar_cons]
    by_cases hc : c = sep
    · cases hsc : splitChar sep cs with
      | nil => exact absurd hsc (splitChar_ne_nil sep cs)
      | cons r rs =>
        show ∃ a b rest,
          (if c = sep then [] :: r :: rs else (c :: r) :: rs) =
            a :: b :: rest
        rw [if_pos hc]
        exact ⟨[], r, rs, rfl⟩
    · have hm2 : sep ∈ cs := by
        rcases List.mem_cons.mp hm with he | hm2
        · exact absurd he.symm hc
        · exact hm2
      obtain ⟨a, b, rest, hsp⟩ := ih hm2
      rw [hsp]
      show ∃ a1 b1 rest1,
        (if c = sep then [] :: a :: b :: rest
         else (c :: a) :: b :: rest) = a1 :: b1 :: rest1
      rw [if_neg hc]
      exact ⟨c :: a, b, rest, rfl⟩

theorem isQualified_elim {cfg : BuildConfig} {tr : Trigger}
    (h : isQualified cfg tr = true) :
    ∃ f, cfg.fromRef = some f ∧ f.kind = "ImageStreamTag" ∧
      tr.imageChange = true := by
  cases hf : cfg.fromRef with
  | none => rw [isQualified, hf] at h; cases h
  | some f =>
    rw [isQualified, hf] at h
    simp only [Bool.and_eq_true, decide_eq_true_eq] at h
    exact ⟨f, rfl, h.1, h.2⟩

theorem srcKey?_isSome {cfg : BuildConfig} {f : FromRef}
    (hf : cfg.fromRef = some f) (hcolon : ':' ∈ f.name.data) :
    (srcKey? cfg).isSome := by
  obtain ⟨a, b, rest, hsp⟩ := splitChar_two_of_mem ':' f.name.data hcolon
  simp only [srcKey?, hf, hsp]
  rfl

theorem resolveOutput_error_parseErr {cfg : BuildConfig} {e : BErr}
    (h : resolveOutput cfg = .error e) : ∃ m, e = .parseErr m := by
  have hhelp : ∀ e', resolveOutputRef cfg = .error e' → ∃ m, e' = .parseErr m := by
    intro e' h'
    unfold resolveOutputRef at h'
    cases hp : parseDockerImageReference
        cfg.parameters.output.dockerImageReference with
    | error m => rw [hp] at h'; cases h'; exact ⟨m, rfl⟩
    | ok pr => obtain ⟨n, t⟩ := pr; rw [hp] at h'; cases h'
  unfold resolveOutput at h
  cases hTo : cfg.parameters.output.To with
  | none => rw [hTo] at h; exact hhelp e h
  | some t0 =>
    simp only [hTo] at h
    by_cases hn : t0.name ≠ ""
    · rw [if_pos hn] at h; cases h
    · rw [if_neg hn] at h; exact hhelp e h

theorem reposLoop_isSome :
    ∀ (pairsL : List (BuildConfig × Trigger))
      (m : List (String × List String)),
      (∀ p ∈ pairsL, ∀ f, p.1.fromRef = some f →
        f.kind = "ImageStreamTag" → ':' ∈ f.name.data) →
      (reposLoop pairsL m).isSome := by
  intro pairsL
  induction pairsL with
  | nil => intro m _; rfl
  | cons p rest ih =>
    obtain ⟨cfg, tr⟩ := p
    intro m hcol
    have hrest := fun q hq => hcol q (List.mem_cons_of_mem _ hq)
    cases hf : cfg.fromRef with
    | none =>
      simp only [reposLoop, hf]
      exact ih m hrest
    | some f =>
      by_cases hcond : tr.imageChange = true ∧ f.name ≠ ""
      · by_cases hkind : f.kind = "ImageStreamTag"
        · have hcolon := hcol (cfg, tr) (by simp) f hf hkind
          obtain ⟨a, b, rest2, hsp⟩ := splitChar_two_of_mem ':'
            f.name.data hcolon
          simp only [reposLoop, hf, if_pos hcond, if_pos hkind, hsp]
          exact ih _ hrest
        · simp only [reposLoop, hf, if_pos hcond, if_neg hkind]
          exact ih m hrest
      · simp only [reposLoop, hf, if_neg hcond]
        exact ih m hrest

theorem depsLoop_no_panic
    (rec : String → String → Option (Except BErr ImageRepo)) (k : String)
    (hrec : ∀ r t s, rec r t ≠ some (.error (.panicErr s))) :
    ∀ (pairsL : List (BuildConfig × Trigger)) (acc : ImageRepo),
      (∀ p ∈ pairsL, depsStep k p.1 p.2 ≠ .panicK) →
      ∀ s, depsLoop rec k pairsL acc ≠ some (.error (.panicErr s)) := by
  intro pairsL
  induction pairsL with
  | nil => intro acc _ s h; rw [depsLoop_nil] at h; cases h
  | cons p rest ih =>
    obtain ⟨cfg, tr⟩ := p
    intro acc hnp s h
    have hrest := fun q hq => hnp q (List.mem_cons_of_mem _ hq)
    cases hstep : depsStep k cfg tr with
    | skip =>
      rw [depsLoop_cons_skip rec rest acc hstep] at h
      exact ih acc hrest s h
    | panicK => exact hnp (cfg, tr) (by simp) hstep
    | resolveErr e =>
      rw [depsLoop_cons_resolveErr rec rest acc hstep] at h
      obtain ⟨_, _, hro⟩ := depsStep_resolveErr_elim hstep
      obtain ⟨m, rfl⟩ := resolveOutput_error_parseErr hro
      cases h
    | matched cr ct =>
      rw [depsLoop_cons_matched rec rest acc hstep] at h
      cases hr : rec cr ct with
      | none =>
        rw [hr] at h
        cases h
      | some x =>
        rw [hr] at h
        cases x with
        | error e =>
          have h2 : some (Except.error e) =
              some (Except.error (BErr.panicErr s)) := h
          have h3 : e = .panicErr s := by
            cases h2
            rfl
          exact hrec cr ct s (h3 ▸ hr)
        | ok child =>
          have h2 : depsLoop rec k rest
              (addChild acc (join cfg.ns cfg.name) child) =
              some (.error (.panicErr s)) := h
          exact ih _ hrest s h2

theorem findRepoDeps_no_panic {configs : List BuildConfig}
    (hcol : ∀ cfg ∈ configs, ∀ f, cfg.fromRef = some f →
      f.kind = "ImageStreamTag" → ':' ∈ f.name.data) :
    ∀ (fuel : Nat) (repo tag s : String),
      findRepoDeps fuel repo tag configs ≠
        some (.error (.panicErr s)) := by
  intro fuel
  induction fuel with
  | zero => intro repo tag s h; rw [findRepoDeps_zero] at h; cases h
  | succ n ih =>
    intro repo tag s h
    cases hs : split repo with
    | error e =>
      rw [findRepoDeps_succ_err n tag configs hs] at h
      cases h
    | ok pr =>
      obtain ⟨ns, nm⟩ := pr
      rw [findRepoDeps_succ n tag configs hs] at h
      refine depsLoop_no_panic _ _ (fun r t s' => ih r t s')
        (cfgTrPairs configs) ⟨repo, [tag], [], []⟩ ?_ s h
      intro p hp hpk
      obtain ⟨hq, hkn⟩ := (depsStep_panicK_iff _ p.1 p.2).mp hpk
      obtain ⟨f, hf, hkind, _⟩ := isQualified_elim hq
      have hsome := srcKey?_isSome hf
        (hcol p.1 ((cfgTrPairs_mem configs p).mp hp).1 f hf hkind)
      rw [hkn] at hsome
      cases hsome

/-- C10: when every mutable (`ImageStreamTag`) source name contains the
`":"` separator, the unguarded `bits[1]` indexing is safe: the catalog
builder returns without panicking and the tree builder can never surface
the index-out-of-range panic at any budget, root or tag. -/
theorem C10_split_index_safety {configs : List BuildConfig}
    (hcol : ∀ cfg ∈ configs, ∀ f, cfg.fromRef = some f →
      f.kind = "ImageStreamTag" → ':' ∈ f.name.data) :
    (getRepos configs).isSome ∧
    ∀ (fuel : Nat) (repo tag s : String),
      findRepoDeps fuel repo tag configs ≠
        some (.error (.panicErr s)) := by
  constructor
  · refine reposLoop_isSome (cfgTrPairs configs) [] ?_
    intro p hp f hf hk
    exact hcol p.1 ((cfgTrPairs_mem configs p).mp hp).1 f hf hk
  · exact findRepoDeps_no_panic hcol

/-- Witness for C10: on the fixture configuration (source `myapp:latest`),
the catalog builder returns and the tree builder never panics. -/
theorem C10_split_index_safety_witness :
    (getRepos [wcfg1]).isSome ∧
    ∀ (fuel : Nat) (repo tag s : String),
      findRepoDeps fuel repo tag [wcfg1] ≠
        some (.error (.panicErr s)) := by
  apply C10_split_index_safety
  intro cfg hc f hf hk
  have hcfg : cfg = wcfg1 := by simpa using hc
  subst hcfg
  have hfv : f = ⟨"ImageStreamTag", "myapp:latest", ""⟩ :=
    (Option.some.inj hf).symm
  subst hfv
  decide

/-- Witness for C1: two fixture configurations trigger on the same source
and output to the same repository with tags `v1` and `v2`; the built tree
merges them into one child carrying both tags. -/
theorem C1_merge_invariant_witness :
    (findRepoDeps 3 "ns/myapp" "latest" [wcfg1, wcfg2] =
      some (.ok (⟨"ns/myapp", ["latest"],
        [NewEdge "ns/bc1" "ns/built", NewEdge "ns/bc2" "ns/built"],
        [⟨"ns/built", ["v1", "v2"], [], []⟩]⟩ : ImageRepo))) ∧
    (((⟨"ns/myapp", ["latest"],
        [NewEdge "ns/bc1" "ns/built", NewEdge "ns/bc2" "ns/built"],
        [⟨"ns/built", ["v1", "v2"], [], []⟩]⟩ :
          ImageRepo).children.map ImageRepo.fullName).Nodup ∧
      (∀ c ∈ (⟨"ns/myapp", ["latest"],
        [NewEdge "ns/bc1" "ns/built", NewEdge "ns/bc2" "ns/built"],
        [⟨"ns/built", ["v1", "v2"], [], []⟩]⟩ : ImageRepo).children,
        c.tags = contributedTags
          (matchedChildren [wcfg1, wcfg2]
            ("ns" ++ "/" ++ "myapp" ++ ":" ++ "latest")) c.fullName) ∧
      (∀ e ∈ (⟨"ns/myapp", ["latest"],
        [NewEdge "ns/bc1" "ns/built", NewEdge "ns/bc2" "ns/built"],
        [⟨"ns/built", ["v1", "v2"], [], []⟩]⟩ : ImageRepo).edges,
        e.To ∈ (⟨"ns/myapp", ["latest"],
          [NewEdge "ns/bc1" "ns/built", NewEdge "ns/bc2" "ns/built"],
          [⟨"ns/built", ["v1", "v2"], [], []⟩]⟩ :
            ImageRepo).children.map ImageRepo.fullName) ∧
      (∀ e ∈ (⟨"ns/myapp", ["latest"],
        [NewEdge "ns/bc1" "ns/built", NewEdge "ns/bc2" "ns/built"],
        [⟨"ns/built", ["v1", "v2"], [], []⟩]⟩ : ImageRepo).edges,
        ((⟨"ns/myapp", ["latest"],
          [NewEdge "ns/bc1" "ns/built", NewEdge "ns/bc2" "ns/built"],
          [⟨"ns/built", ["v1", "v2"], [], []⟩]⟩ :
            ImageRepo).children.filter
          (fun c => c.fullName == e.To)).length = 1)) :=
  ⟨rfl, @C1_merge_invariant 3 "ns/myapp" "latest" "ns" "myapp"
    [wcfg1, wcfg2]
    ⟨"ns/myapp", ["latest"],
      [NewEdge "ns/bc1" "ns/built", NewEdge "ns/bc2" "ns/built"],
      [⟨"ns/built", ["v1", "v2"], [], []⟩]⟩ rfl rfl⟩

/-- Witness for C2: on the same two-configuration fixture the edge list is
the resolved match list and has length two, the number of matching pairs. -/
theorem C2_edge_completeness_witness :
    ((⟨"ns/myapp", ["latest"],
      [NewEdge "ns/bc1" "ns/built", NewEdge "ns/bc2" "ns/built"],
      [⟨"ns/built", ["v1", "v2"], [], []⟩]⟩ : ImageRepo).edges =
      (matchedChildren [wcfg1, wcfg2]
        ("ns" ++ "/" ++ "myapp" ++ ":" ++ "latest")).map
        (fun m => NewEdge m.1 m.2.1)) ∧
    (⟨"ns/myapp", ["latest"],
      [NewEdge "ns/bc1" "ns/built", NewEdge "ns/bc2" "ns/built"],
      [⟨"ns/built", ["v1", "v2"], [], []⟩]⟩ : ImageRepo).edges.length =
      (matchingPairs [wcfg1, wcfg2]
        ("ns" ++ "/" ++ "myapp" ++ ":" ++ "latest")).length :=
  @C2_edge_completeness 3 "ns/myapp" "latest" "ns" "myapp"
    [wcfg1, wcfg2]
    ⟨"ns/myapp", ["latest"],
      [NewEdge "ns/bc1" "ns/built", NewEdge "ns/bc2" "ns/built"],
      [⟨"ns/built", ["v1", "v2"], [], []⟩]⟩ rfl rfl

/-- Witness for C5: a matching fixture configuration whose combined output
reference `badref` fails to parse makes every budget's result a non-tree. -/
theorem C5_parse_error_fatal_witness :
    findRepoDeps 2 "ns/myapp" "latest" [wcfgBadRef] ≠
      some (.ok (⟨"ns/myapp", ["latest"], [], []⟩ : ImageRepo)) :=
  @C5_parse_error_fatal "ns/myapp" "latest" "ns" "myapp"
    "invalid docker image reference badref" [wcfgBadRef] wcfgBadRef ⟨true⟩
    rfl (by decide) rfl (by decide) (fun t0 h => nomatch h) rfl
    2 ⟨"ns/myapp", ["latest"], [], []⟩

/-- Witness for C6: the fixture configuration does not match `ns/other`, so
the one-budget run returns the single-node tree and the iff holds with an
empty matching-pair list. -/
theorem C6_leaf_rule_witness :
    (findRepoDeps 1 "ns/other" "latest" [wcfg1] =
        some (.ok (⟨"ns/other", ["latest"], [], []⟩ : ImageRepo)) ↔
      matchingPairs [wcfg1] ("ns" ++ "/" ++ "other" ++ ":" ++ "latest") =
        []) ∧
    (∀ root : ImageRepo,
      findRepoDeps 1 "ns/other" "latest" [wcfg1] = some (.ok root) →
      (treeSize root = 1 ↔
        matchingPairs [wcfg1]
          ("ns" ++ "/" ++ "other" ++ ":" ++ "latest") = [])) :=
  C6_leaf_rule rfl (by decide) (by decide)

/-! ### Renderer self-check -/

theorem dotDump_zero (render : DotGraph → String) (parse : String → Bool)
    (r : ImageRepo) (g : DotGraph) (gn : String) (fired : Bool) :
    dotDump render parse 0 r g gn fired = none := rfl

/-- C3: the directed-graph renderer never emits an unparseable description:
whenever `dotDump` returns a non-error result, that result is the rendered
graph text and it passed the parser self-check; when the self-check fails
the renderer returns an error carrying no output. -/
theorem C3_dot_self_check (render : DotGraph → String)
    (parse : String → Bool) :
    ∀ (fuel : Nat) (r : ImageRepo) (g : DotGraph) (gn : String)
      (fired : Bool) (out : String) (g2 : DotGraph) (f2 : Bool),
      dotDump render parse fuel r g gn fired = some (.ok (out, g2, f2)) →
      parse out = true := by
  intro fuel r g gn fired out g2 f2 h
  cases fuel with
  | zero => rw [dotDump_zero] at h; cases h
  | succ n =>
    unfold dotDump at h
    split at h
    next e => exact absurd h (by simp)
    next rootNs rootName0 =>
      split at h
      next e => exact absurd h (by simp)
      next tag fired1 =>
        dsimp only [] at h
        split at h
        next => exact absurd h (by simp)
        next e => exact absurd h (by simp)
        next g2' fired2 =>
          split at h
          next hp =>
            cases h
            exact hp
          next hp => exact absurd h (by simp)

/-- Witness for C3: a one-node tree rendered with stub render/parse
functions returns successfully, and the parser accepted the output. -/
theorem C3_dot_self_check_witness :
    wparse "digraph g" = true :=
  C3_dot_self_check wrender wparse 1 wtreeA wg0 "g" false "digraph g"
    (addNodeG wg0 (validDOT "a")
      (setLabel "a" "ns" (setTag "v" []) "v")) true rfl

/-! ### Injectivity of the identifier sanitizer -/

theorem unary_code_inj :
    ∀ (a b : Nat) (s t : List Char),
      List.replicate a 'x' ++ '_' :: s = List.replicate b 'x' ++ '_' :: t →
      a = b ∧ s = t := by
  intro a
  induction a with
  | zero =>
    intro b s t h
    cases b with
    | zero =>
      simp only [List.replicate, List.nil_append] at h
      injection h with _ h2
      exact ⟨rfl, h2⟩
    | succ b2 =>
      simp only [List.replicate, List.nil_append, List.cons_append] at h
      injection h with h1 _
      exact absurd h1 (by decide)
  | succ a2 ih =>
    intro b s t h
    cases b with
    | zero =>
      simp only [List.replicate, List.nil_append, List.cons_append] at h
      injection h with h1 _
      exact absurd h1 (by decide)
    | succ b2 =>
      simp only [List.replicate, List.cons_append] at h
      injection h with _ h2
      obtain ⟨he, hs⟩ := ih b2 s t h2
      exact ⟨by omega, hs⟩

theorem alphanum_ne_underscore {c : Char} (h : c.isAlphanum = true) :
    c ≠ '_' := by
  intro he
  subst he
  exact absurd h (by decide)

theorem sanitizeChars_injective :
    ∀ xs ys : List Char, sanitizeChars xs = sanitizeChars ys → xs = ys := by
  intro xs
  induction xs with
  | nil =>
    intro ys h
    cases ys with
    | nil => rfl
    | cons d ds =>
      by_cases hd : d.isAlphanum = true
      · simp [sanitizeChars, hd] at h
      · simp [sanitizeChars, hd] at h
  | cons c cs ih =>
    intro ys h
    cases ys with
    | nil =>
      by_cases hc : c.isAlphanum = true
      · simp [sanitizeChars, hc] at h
      · simp [sanitizeChars, hc] at h
    | cons d ds =>
      by_cases hc : c.isAlphanum = true <;> by_cases hd : d.isAlphanum = true
      · rw [sanitizeChars, sanitizeChars, if_pos hc, if_pos hd] at h
        injection h with h1 h2
        rw [h1, ih ds h2]
      · rw [sanitizeChars, sanitizeChars, if_pos hc, if_neg hd] at h
        injection h with h1 _
        exact absurd h1 (alphanum_ne_underscore hc)
      · rw [sanitizeChars, sanitizeChars, if_neg hc, if_pos hd] at h
        injection h with h1 _
        exact absurd h1.symm (alphanum_ne_underscore hd)
      · rw [sanitizeChars, sanitizeChars, if_neg hc, if_neg hd] at h
        injection h with _ h2
        obtain ⟨he, hs⟩ := unary_code_inj c.toNat d.toNat
          (sanitizeChars cs) (sanitizeChars ds) h2
        have hcd : c = d := by
          have h4 := Char.ofNat_toNat c
          have h5 := Char.ofNat_toNat d
          rw [← h4, ← h5, he]
        rw [hcd, ih ds hs]

/-- C7: the identifier-sanitizing transform is injective on all names, so
within one render two distinct repository short names never map to the same
graph-node identifier. -/
theorem C7_validDOT_injective (a b : String)
    (h : validDOT a = validDOT b) : a = b := by
  have h2 : sanitizeChars a.data = sanitizeChars b.data := by
    have h1 := congrArg String.data h
    simpa [validDOT] using h1
  have h3 := sanitizeChars_injective a.data b.data h2
  cases a
  cases b
  exact congrArg String.mk h3

/-- Witness for C7: applying injectivity at a concrete sanitized name. -/
theorem C7_validDOT_injective_witness : ("a-b" : String) = "a-b" :=
  C7_validDOT_injective "a-b" "a-b" rfl

/-! ### Catalog builder characterization -/

theorem hasTag_nil (r t : String) : ¬ hasTag [] r t := by
  rintro ⟨ts, hm, _⟩
  cases hm

theorem hasTag_cons (a : String) (ts : List String)
    (m : List (String × List String)) (r t : String) :
    hasTag ((a, ts) :: m) r t ↔ (r = a ∧ t ∈ ts) ∨ hasTag m r t := by
  constructor
  · rintro ⟨ts', hm, hs⟩
    rcases List.mem_cons.mp hm with he | hm2
    · injection he with h1 h2
      subst h1
      subst h2
      exact Or.inl ⟨rfl, hs⟩
    · exact Or.inr ⟨ts', hm2, hs⟩
  · rintro (⟨rfl, hs⟩ | ⟨ts', hm2, hs⟩)
    · exact ⟨ts, by simp, hs⟩
    · exact ⟨ts', by simp [hm2], hs⟩

theorem mem_lookupTags :
    ∀ (m : List (String × List String)) (k t : String),
      t ∈ lookupTags m k → hasTag m k t := by
  intro m
  induction m with
  | nil => intro k t h; cases h
  | cons p rest ih =>
    obtain ⟨k', ts⟩ := p
    intro k t h
    rw [lookupTags] at h
    by_cases he : k' = k
    · rw [if_pos he] at h
      subst he
      exact (hasTag_cons _ ts rest _ t).mpr (Or.inl ⟨rfl, h⟩)
    · rw [if_neg he] at h
      exact (hasTag_cons k' ts rest k t).mpr (Or.inr (ih k t h))

theorem hasTag_appendTag (k t : String) :
    ∀ (m : List (String × List String)) (r s : String),
      hasTag (appendTag m k t) r s ↔
        hasTag m r s ∨ (r = k ∧ s = t) := by
  intro m
  induction m with
  | nil =>
    intro r s
    rw [show appendTag [] k t = [(k, [t])] from rfl]
    rw [hasTag_cons]
    constructor
    · rintro (⟨rfl, hs⟩ | hbad)
      · exact Or.inr ⟨rfl, by simpa using hs⟩
      · exact absurd hbad (hasTag_nil r s)
    · rintro (hbad | ⟨rfl, rfl⟩)
      · exact absurd hbad (hasTag_nil r s)
      · exact Or.inl ⟨rfl, by simp⟩
  | cons p rest ih =>
    obtain ⟨k', ts⟩ := p
    intro r s
    by_cases he : k' = k
    · rw [show appendTag ((k', ts) :: rest) k t =
        (k', ts ++ [t]) :: rest by rw [appendTag, if_pos he]]
      rw [hasTag_cons, hasTag_cons]
      subst he
      simp only [List.mem_append, List.mem_singleton]
      tauto
    · rw [show appendTag ((k', ts) :: rest) k t =
        (k', ts) :: appendTag rest k t by rw [appendTag, if_neg he]]
      rw [hasTag_cons, hasTag_cons, ih]
      tauto

theorem hasTag_insertTagU (k t : String)
    (m : List (String × List String)) (r s : String) :
    hasTag (insertTagU m k t) r s ↔
      hasTag m r s ∨ (r = k ∧ s = t) := by
  rw [insertTagU]
  by_cases hl : t ∈ lookupTags m k
  · rw [if_pos hl]
    constructor
    · exact Or.inl
    · rintro (h | ⟨rfl, rfl⟩)
      · exact h
      · exact mem_lookupTags m r s hl
  · rw [if_neg hl]
    exact hasTag_appendTag k t m r s

theorem appendTag_keys_of_mem (k t : String) :
    ∀ m : List (String × List String), k ∈ m.map Prod.fst →
      (appendTag m k t).map Prod.fst = m.map Prod.fst := by
  intro m
  induction m with
  | nil => intro h; cases h
  | cons p rest ih =>
    obtain ⟨k', ts⟩ := p
    intro h
    by_cases he : k' = k
    · rw [show appendTag ((k', ts) :: rest) k t =
        (k', ts ++ [t]) :: rest by rw [appendTag, if_pos he]]
      simp
    · rw [show appendTag ((k', ts) :: rest) k t =
        (k', ts) :: appendTag rest k t by rw [appendTag, if_neg he]]
      have h2 : k ∈ rest.map Prod.fst := by
        rcases List.mem_cons.mp h with he2 | h2
        · exact absurd he2.symm he
        · exact h2
      simp [ih h2]

theorem appendTag_of_not_mem (k t : String) :
    ∀ m : List (String × List String), k ∉ m.map Prod.fst →
      appendTag m k t = m ++ [(k, [t])] := by
  intro m
  induction m with
  | nil => intro _; rfl
  | cons p rest ih =>
    obtain ⟨k', ts⟩ := p
    intro h
    have he : k' ≠ k := by
      intro he2
      exact h (by simp [he2])
    rw [show appendTag ((k', ts) :: rest) k t =
      (k', ts) :: appendTag rest k t by rw [appendTag, if_neg he]]
    rw [ih (fun h2 => h (by simp [h2]))]
    simp

theorem insertTagU_keys_nodup (k t : String)
    (m : List (String × List String))
    (hnd : (m.map Prod.fst).Nodup) :
    ((insertTagU m k t).map Prod.fst).Nodup := by
  rw [insertTagU]
  by_cases hl : t ∈ lookupTags m k
  · rw [if_pos hl]; exact hnd
  · rw [if_neg hl]
    by_cases hk : k ∈ m.map Prod.fst
    · rw [appendTag_keys_of_mem k t m hk]; exact hnd
    · rw [appendTag_of_not_mem k t m hk]
      simp only [List.map_append, List.map_cons, List.map_nil]
      exact List.nodup_append.mpr ⟨hnd, by simp, by simpa using hk⟩

theorem lookupTags_of_mem :
    ∀ (m : List (String × List String)) (k : String)
      (ts : List String), (m.map Prod.fst).Nodup → (k, ts) ∈ m →
      lookupTags m k = ts := by
  intro m
  induction m with
  | nil => intro k ts _ h; cases h
  | cons p rest ih =>
    obtain ⟨k', ts'⟩ := p
    intro k ts hnd h
    rcases List.mem_cons.mp h with he | h2
    · injection he with h1 h2
      subst h1
      subst h2
      rw [lookupTags, if_pos rfl]
    · by_cases he2 : k' = k
      · subst he2
        have : k' ∈ rest.map Prod.fst := by
          have := List.mem_map_of_mem Prod.fst h2
          simpa using this
        exact absurd this (List.nodup_cons.mp hnd).1
      · rw [lookupTags, if_neg he2]
        exact ih k ts (List.nodup_cons.mp hnd).2 h2

theorem appendTag_entries_nodup (k t : String) :
    ∀ m : List (String × List String),
      (∀ p ∈ m, p.2.Nodup) → t ∉ lookupTags m k →
      ∀ p ∈ appendTag m k t, p.2.Nodup := by
  intro m
  induction m with
  | nil =>
    intro _ _ p hp
    have hpv : p = (k, [t]) := by
      simpa [show appendTag [] k t = [(k, [t])] from rfl] using hp
    subst hpv
    simp
  | cons q rest ih =>
    obtain ⟨k', ts⟩ := q
    intro hall hl p hp
    by_cases he : k' = k
    · rw [show appendTag ((k', ts) :: rest) k t =
        (k', ts ++ [t]) :: rest by rw [appendTag, if_pos he]] at hp
      rcases List.mem_cons.mp hp with rfl | hp2
      · have hts : ts.Nodup := hall (k', ts) (by simp)
        have htn : t ∉ ts := by
          subst he
          rw [lookupTags, if_pos rfl] at hl
          exact hl
        simpa using List.Nodup.append hts (by simp) (by simpa using htn)
      · exact hall p (by simp [hp2])
    · rw [show appendTag ((k', ts) :: rest) k t =
        (k', ts) :: appendTag rest k t by
          rw [appendTag, if_neg he]] at hp
      rcases List.mem_cons.mp hp with rfl | hp2
      · exact hall _ (by simp)
      · refine ih (fun q hq => hall q (by simp [hq])) ?_ p hp2
        rw [lookupTags, if_neg he] at hl
        exact hl

theorem insertTagU_entries_nodup (k t : String)
    (m : List (String × List String))
    (hall : ∀ p ∈ m, p.2.Nodup) :
    ∀ p ∈ insertTagU m k t, p.2.Nodup := by
  rw [insertTagU]
  by_cases hl : t ∈ lookupTags m k
  · rw [if_pos hl]; exact hall
  · rw [if_neg hl]
    exact appendTag_entries_nodup k t m hall hl

theorem ReposSpecP_cons (p : BuildConfig × Trigger)
    (pairsL : List (BuildConfig × Trigger)) (r t : String) :
    ReposSpecP (p :: pairsL) r t ↔
      (∃ f n0 t1 bs,
        p.1.fromRef = some f ∧ p.2.imageChange = true ∧ f.name ≠ "" ∧
        f.kind = "ImageStreamTag" ∧
        splitChar ':' f.name.data = n0 :: t1 :: bs ∧
        t = String.mk t1 ∧
        r = (if f.ns = "" then join p.1.ns (String.mk n0)
             else join f.ns (String.mk n0))) ∨
      ReposSpecP pairsL r t := by
  constructor
  · rintro ⟨q, hq, hrest⟩
    rcases List.mem_cons.mp hq with rfl | hq2
    · exact Or.inl hrest
    · exact Or.inr ⟨q, hq2, hrest⟩
  · rintro (h | ⟨q, hq2, hrest⟩)
    · exact ⟨p, by simp, h⟩
    · exact ⟨q, by simp [hq2], hrest⟩

/-- The catalog loop with a well-formed accumulator returns a well-formed
map whose membership is the accumulator's plus the pairs' contributions. -/
theorem reposLoop_spec :
    ∀ (pairsL : List (BuildConfig × Trigger))
      (m m' : List (String × List String)),
      reposLoop pairsL m = some m' →
      (m.map Prod.fst).Nodup → (∀ p ∈ m, p.2.Nodup) →
      ((m'.map Prod.fst).Nodup ∧ (∀ p ∈ m', p.2.Nodup) ∧
        ∀ r t, hasTag m' r t ↔ hasTag m r t ∨ ReposSpecP pairsL r t) := by
  intro pairsL
  induction pairsL with
  | nil =>
    intro m m' h hnd hall
    rw [show reposLoop [] m = some m from rfl] at h
    cases h
    refine ⟨hnd, hall, fun r t => ?_⟩
    constructor
    · exact Or.inl
    · rintro (h2 | ⟨q, hq, _⟩)
      · exact h2
      · cases hq
  | cons p rest ih =>
    obtain ⟨cfg, tr⟩ := p
    intro m m' h hnd hall
    cases hf : cfg.fromRef with
    | none =>
      simp only [reposLoop, hf] at h
      obtain ⟨h1, h2, h3⟩ := ih m m' h hnd hall
      refine ⟨h1, h2, fun r t => ?_⟩
      rw [h3 r t, ReposSpecP_cons]
      have hno : ¬ (∃ f n0 t1 bs,
          (cfg, tr).1.fromRef = some f ∧
          (cfg, tr).2.imageChange = true ∧ f.name ≠ "" ∧
          f.kind = "ImageStreamTag" ∧
          splitChar ':' f.name.data = n0 :: t1 :: bs ∧
          t = String.mk t1 ∧
          r = (if f.ns = "" then join (cfg, tr).1.ns (String.mk n0)
               else join f.ns (String.mk n0))) := by
        rintro ⟨f, _, _, _, hf2, _⟩
        rw [hf] at hf2
        cases hf2
      rw [or_iff_right hno]
    | some f0 =>
      by_cases hcond : tr.imageChange = true ∧ f0.name ≠ ""
      · by_cases hkind : f0.kind = "ImageStreamTag"
        · cases hsp : splitChar ':' f0.name.data with
          | nil => exact absurd hsp (splitChar_ne_nil ':' f0.name.data)
          | cons n0 rest2 =>
            cases rest2 with
            | nil =>
              simp only [reposLoop, hf, if_pos hcond, if_pos hkind,
                hsp] at h
              exact Option.noConfusion h
            | cons t1 bs =>
              simp only [reposLoop, hf, if_pos hcond, if_pos hkind,
                hsp] at h
              obtain ⟨h1, h2, h3⟩ := ih _ m' h
                (insertTagU_keys_nodup _ _ m hnd)
                (insertTagU_entries_nodup _ _ m hall)
              refine ⟨h1, h2, fun r t => ?_⟩
              rw [h3 r t, hasTag_insertTagU, ReposSpecP_cons]
              have hhead : (∃ f n0' t1' bs',
                  (cfg, tr).1.fromRef = some f ∧
                  (cfg, tr).2.imageChange = true ∧ f.name ≠ "" ∧
                  f.kind = "ImageStreamTag" ∧
                  splitChar ':' f.name.data = n0' :: t1' :: bs' ∧
                  t = String.mk t1' ∧
                  r = (if f.ns = "" then join (cfg, tr).1.ns (String.mk n0')
                       else join f.ns (String.mk n0'))) ↔
                  (r = (if f0.ns = "" then join cfg.ns (String.mk n0)
                        else join f0.ns (String.mk n0)) ∧
                   t = String.mk t1) := by
                constructor
                · rintro ⟨f, n0', t1', bs', hf2, _, _, _, hsp2, ht, hr⟩
                  have hfv : f = f0 := by
                    rw [hf] at hf2
                    exact (Option.some.inj hf2).symm
                  subst hfv
                  rw [hsp] at hsp2
                  injection hsp2 with e1 e2
                  injection e2 with e3 _
                  subst e1
                  subst e3
                  exact ⟨hr, ht⟩
                · rintro ⟨hr, ht⟩
                  exact ⟨f0, n0, t1, bs, by simpa using hf, hcond.1,
                    hcond.2, hkind, hsp, ht, hr⟩
              rw [hhead]
              tauto
        · simp only [reposLoop, hf, if_pos hcond, if_neg hkind] at h
          obtain ⟨h1, h2, h3⟩ := ih m m' h hnd hall
          refine ⟨h1, h2, fun r t => ?_⟩
          rw [h3 r t, ReposSpecP_cons]
          have hno : ¬ (∃ f n0 t1 bs,
              (cfg, tr).1.fromRef = some f ∧
              (cfg, tr).2.imageChange = true ∧ f.name ≠ "" ∧
              f.kind = "ImageStreamTag" ∧
              splitChar ':' f.name.data = n0 :: t1 :: bs ∧
              t = String.mk t1 ∧
              r = (if f.ns = "" then join (cfg, tr).1.ns (String.mk n0)
                   else join f.ns (String.mk n0))) := by
            rintro ⟨f, _, _, _, hf2, _, _, hk2, _⟩
            rw [hf] at hf2
            have hfv : f = f0 := (Option.some.inj hf2).symm
            subst hfv
            exact hkind hk2
          rw [or_iff_right hno]
      · simp only [reposLoop, hf, if_neg hcond] at h
        obtain ⟨h1, h2, h3⟩ := ih m m' h hnd hall
        refine ⟨h1, h2, fun r t => ?_⟩
        rw [h3 r t, ReposSpecP_cons]
        have hno : ¬ (∃ f n0 t1 bs,
            (cfg, tr).1.fromRef = some f ∧
            (cfg, tr).2.imageChange = true ∧ f.name ≠ "" ∧
            f.kind = "ImageStreamTag" ∧
            splitChar ':' f.name.data = n0 :: t1 :: bs ∧
            t = String.mk t1 ∧
            r = (if f.ns = "" then join (cfg, tr).1.ns (String.mk n0)
                 else join f.ns (String.mk n0))) := by
          rintro ⟨f, _, _, _, hf2, hic, hne, _⟩
          rw [hf] at hf2
          have hfv : f = f0 := (Option.some.inj hf2).symm
          subst hfv
          exact hcond ⟨hic, hne⟩
        rw [or_iff_right hno]

/-- C8: the catalog builder is a pure function of the configuration list
returning a duplicate-free mapping: a (repository, tag) pair is present
exactly when some image-change trigger of mutable `ImageStreamTag` kind and
non-empty source name contributes it, with the namespace taken from the
trigger when set and from the owning configuration otherwise; each
repository's tag sequence is duplicate-free. -/
theorem C8_catalog_builder {configs : List BuildConfig}
    {m : List (String × List String)} (h : getRepos configs = some m) :
    (m.map Prod.fst).Nodup ∧ (∀ p ∈ m, p.2.Nodup) ∧
    ∀ r t, hasTag m r t ↔ ReposSpec configs r t := by
  obtain ⟨h1, h2, h3⟩ := reposLoop_spec (cfgTrPairs configs) [] m h
    (by simp) (by simp)
  refine ⟨h1, h2, fun r t => ?_⟩
  rw [h3 r t]
  constructor
  · rintro (hbad | hsp)
    · exact absurd hbad (hasTag_nil r t)
    · exact hsp
  · exact Or.inr

/-- Witness for C8: the two fixture configurations produce the mapping with
the single entry `ns/myapp ↦ [latest]`, duplicate-free and characterized. -/
theorem C8_catalog_builder_witness :
    (([("ns/myapp", ["latest"])] :
        List (String × List String)).map Prod.fst).Nodup ∧
    (∀ p ∈ ([("ns/myapp", ["latest"])] : List (String × List String)),
      p.2.Nodup) ∧
    ∀ r t, hasTag [("ns/myapp", ["latest"])] r t ↔
      ReposSpec [wcfg1, wcfg2] r t :=
  @C8_catalog_builder [wcfg1, wcfg2] [("ns/myapp", ["latest"])] rfl

/-! ### One-shot tag labeling of the renderer -/

theorem getAttr_setAttr (k v : String) :
    ∀ attrs : List (String × String), getAttr (setAttr attrs k v) k = some v := by
  intro attrs
  induction attrs with
  | nil => rw [setAttr, getAttr, if_pos rfl]
  | cons p rest ih =>
    obtain ⟨k', v'⟩ := p
    by_cases he : k' = k
    · rw [setAttr, if_pos he, getAttr, if_pos rfl]
    · rw [setAttr, if_neg he, getAttr, if_neg he]
      exact ih

theorem getAttr_setLabel (nm ns tag : String)
    (attrs : List (String × String)) :
    getAttr (setLabel nm ns attrs tag) "label" =
      some (labelText nm ns tag) :=
  getAttr_setAttr "label" (labelText nm ns tag) attrs

theorem addEdgeG_nodes (g : DotGraph) (src dst : String)
    (attrs : List (String × String)) :
    (addEdgeG g src dst attrs).nodes = g.nodes := rfl

theorem addNodeG_nodes (g : DotGraph) (nodeName : String)
    (attrs : List (String × String)) :
    (addNodeG g nodeName attrs).nodes = g.nodes ++ [(nodeName, attrs)] := rfl

theorem childEdges_nodes (cf rn : String) :
    ∀ (es : List Edge) (g g' : DotGraph),
      childEdges cf rn es g = .ok g' → g'.nodes = g.nodes := by
  intro es
  induction es with
  | nil =>
    intro g g' h
    cases h
    rfl
  | cons e es2 ih =>
    intro g g' h
    unfold childEdges at h
    split at h
    · split at h
      next err => cases h
      next he1 =>
        split at h
        next err => cases h
        next he2 =>
          rw [ih _ g' h, addEdgeG_nodes]
    · exact ih g g' h

theorem validDOT_inj {a b : String} (h : validDOT a = validDOT b) :
    a = b := by
  have h2 : sanitizeChars a.data = sanitizeChars b.data := by
    have h1 := congrArg String.data h
    simpa [validDOT] using h1
  have h3 := sanitizeChars_injective a.data b.data h2
  cases a
  cases b
  exact congrArg String.mk h3

/-- A label carrying a nonempty tag is never equal to a tagless label for
the same short name. -/
theorem labelText_tagless_ne_tagged (nm ns ns' t : String) (ht : t ≠ "") :
    labelText nm ns' "" ≠ labelText nm ns t := by
  intro h
  rw [labelText, labelText, if_pos rfl, if_neg ht] at h
  have hd := congrArg String.data h
  simp only [String.data_append, List.append_assoc] at hd
  have h2 := List.append_cancel_left hd
  simp at h2

/-- Non-vacuity of `untaggedNode`: a node built by the renderer with a
nonempty tag embedded in its label never counts as untagged. -/
theorem setLabel_tagged_not_untagged
    (nd : String × List (String × String)) (nm ns : String)
    (attrs0 : List (String × String)) (t : String) (ht : t ≠ "")
    (hnd : nd = (validDOT nm, setLabel nm ns attrs0 t)) :
    ¬ untaggedNode nd := by
  rintro ⟨nm', ns', attrs1, he⟩
  rw [hnd] at he
  injection he with h1 h2
  have hnm : nm = nm' := validDOT_inj h1
  subst hnm
  have h3 : getAttr (setLabel nm ns attrs0 t) "label" =
      getAttr (setLabel nm ns' attrs1 "") "label" := by rw [h2]
  rw [getAttr_setLabel, getAttr_setLabel] at h3
  exact labelText_tagless_ne_tagged nm ns ns' t ht
    (Option.some.inj h3).symm

/-- With the one-shot flag already fired, the child loop only appends
untagged nodes and leaves the flag fired. -/
theorem dotKids_fired
    (recD : ImageRepo → DotGraph → Bool →
      Option (Except String (String × DotGraph × Bool)))
    (hrec : ∀ (c : ImageRepo) (g : DotGraph) (out : String) (g2 : DotGraph)
      (f2 : Bool), recD c g true = some (.ok (out, g2, f2)) →
      f2 = true ∧ ∃ new, g2.nodes = g.nodes ++ new ∧
        ∀ nd ∈ new, untaggedNode nd) :
    ∀ (cs : List ImageRepo) (edges : List Edge) (rn : String)
      (g g2 : DotGraph) (f2 : Bool),
      dotKids recD cs edges rn g true = some (.ok (g2, f2)) →
      f2 = true ∧ ∃ new, g2.nodes = g.nodes ++ new ∧
        ∀ nd ∈ new, untaggedNode nd := by
  intro cs
  induction cs with
  | nil =>
    intro edges rn g g2 f2 h
    rw [show dotKids recD [] edges rn g true = some (.ok (g, true))
      from rfl] at h
    cases h
    exact ⟨rfl, [], by simp, fun nd hnd => absurd hnd (by simp)⟩
  | cons c cs2 ih =>
    intro edges rn g g2 f2 h
    unfold dotKids at h
    split at h
    next e => cases h
    next g1 hce =>
      split at h
      next => cases h
      next e => cases h
      next outx gx fx hrc =>
        obtain ⟨hfx, new1, hn1, hu1⟩ := hrec c g1 outx gx fx hrc
        subst hfx
        obtain ⟨hf2, new2, hn2, hu2⟩ := ih edges rn gx g2 f2 h
        refine ⟨hf2, new1 ++ new2, ?_, ?_⟩
        · rw [hn2, hn1, childEdges_nodes c.fullName rn edges g g1 hce,
            List.append_assoc]
        · intro nd hnd
          rcases List.mem_append.mp hnd with h1 | h2
          · exact hu1 nd h1
          · exact hu2 nd h2

/-- With the one-shot flag fired, a render appends only untagged nodes and
leaves the flag fired. -/
theorem dotDump_fired (render : DotGraph → String) (parse : String → Bool) :
    ∀ (fuel : Nat) (r : ImageRepo) (g : DotGraph) (gn : String)
      (out : String) (g2 : DotGraph) (f2 : Bool),
      dotDump render parse fuel r g gn true = some (.ok (out, g2, f2)) →
      f2 = true ∧ ∃ new, g2.nodes = g.nodes ++ new ∧
        ∀ nd ∈ new, untaggedNode nd := by
  intro fuel
  induction fuel with
  | zero => intro r g gn out g2 f2 h; rw [dotDump_zero] at h; cases h
  | succ n ih =>
    intro r g gn out g2 f2 h
    unfold dotDump at h
    split at h
    next e => exact absurd h (by simp)
    next rootNs rootName0 hsplit =>
      split at h
      next e heq => simp at heq
      next tagv fired1 heq =>
        have htv : tagv = "" ∧ fired1 = true := by
          simp at heq
          obtain ⟨h1, h2⟩ := heq
          exact ⟨by first | exact h1 | exact h1.symm, h2⟩
        obtain ⟨rfl, rfl⟩ := htv
        dsimp only [] at h
        split at h
        next => exact absurd h (by simp)
        next e => exact absurd h (by simp)
        next g2' fired2 heq2 =>
          obtain ⟨hf2, new1, hn1, hu1⟩ := dotKids_fired _
            (fun c g' outx gx fx hx => ih c g' gn outx gx fx hx)
            r.children r.edges (validDOT rootName0) _ g2' fired2 heq2
          split at h
          next hp =>
            cases h
            refine ⟨hf2,
              (validDOT rootName0,
                setLabel rootName0 rootNs
                  (List.foldl (fun a t => setTag t a) [] r.tags) "") :: new1,
              ?_, ?_⟩
            · rw [hn1, addNodeG_nodes, List.append_assoc]
              rfl
            · intro nd hnd
              rcases List.mem_cons.mp hnd with rfl | h2
              · exact ⟨rootName0, rootNs,
                  List.foldl (fun a t => setTag t a) [] r.tags, rfl⟩
              · exact hu1 nd h2
          next hp => exact absurd h (by simp)

/-- The very first render (flag not yet fired) labels its first node with
the root's first tag and every further node without a tag, leaving the
flag fired. -/
theorem dotDump_unfired (render : DotGraph → String)
    (parse : String → Bool) :
    ∀ (fuel : Nat) (r : ImageRepo) (g : DotGraph) (gn : String)
      (out : String) (g2 : DotGraph) (f2 : Bool) (t : String)
      (ts : List String),
      r.tags = t :: ts →
      dotDump render parse fuel r g gn false = some (.ok (out, g2, f2)) →
      f2 = true ∧ ∃ fnd new, g2.nodes = g.nodes ++ fnd :: new ∧
        (∃ nm ns attrs0, split r.fullName = .ok (ns, nm) ∧
          fnd = (validDOT nm, setLabel nm ns attrs0 t)) ∧
        ∀ nd ∈ new, untaggedNode nd := by
  intro fuel r g gn out g2 f2 t ts htags h
  cases fuel with
  | zero => rw [dotDump_zero] at h; cases h
  | succ n =>
    unfold dotDump at h
    split at h
    next e => exact absurd h (by simp)
    next rootNs rootName0 hsplit =>
      split at h
      next e heq =>
        rw [htags] at heq
        simp at heq
      next tagv fired1 heq =>
        rw [htags] at heq
        have htv : tagv = t ∧ fired1 = true := by
          simp at heq
          obtain ⟨h1, h2⟩ := heq
          exact ⟨by first | exact h1 | exact h1.symm, h2⟩
        obtain ⟨rfl, rfl⟩ := htv
        dsimp only [] at h
        split at h
        next => exact absurd h (by simp)
        next e => exact absurd h (by simp)
        next g2' fired2 heq2 =>
          obtain ⟨hf2, new1, hn1, hu1⟩ := dotKids_fired _
            (fun c g' outx gx fx hx =>
              dotDump_fired render parse n c g' gn outx gx fx hx)
            r.children r.edges (validDOT rootName0) _ g2' fired2 heq2
          split at h
          next hp =>
            cases h
            refine ⟨hf2,
              (validDOT rootName0,
                setLabel rootName0 rootNs
                  (List.foldl (fun a t' => setTag t' a) [] r.tags) tagv),
              new1, ?_, ?_, ?_⟩
            · rw [hn1, addNodeG_nodes, List.append_assoc]
              rfl
            · exact ⟨rootName0, rootNs,
                List.foldl (fun a t' => setTag t' a) [] r.tags, hsplit, rfl⟩
            · exact hu1
          next hp => exact absurd h (by simp)

/-- C9: threading the process-wide one-shot flag explicitly, exactly the
first node ever rendered gets its first tag embedded in its label (its
node is the sanitized root short name labeled by `setLabel` with that
tag); every node rendered after the flag has fired — including the roots
of later, different trees — is an untagged node (its label written by
`setLabel` with the empty tag for its own identifier's short name), and
the flag stays fired.  The third conjunct shows the untagged-node
property is discriminating: a node whose label embeds a nonempty tag for
its own name never satisfies it. -/
theorem C9_one_shot_tag_label (render : DotGraph → String)
    (parse : String → Bool) :
    (∀ (fuel : Nat) (r : ImageRepo) (g : DotGraph) (gn : String)
      (out : String) (g2 : DotGraph) (f2 : Bool),
      dotDump render parse fuel r g gn true = some (.ok (out, g2, f2)) →
      f2 = true ∧ ∃ new, g2.nodes = g.nodes ++ new ∧
        ∀ nd ∈ new, untaggedNode nd) ∧
    (∀ (fuel : Nat) (r : ImageRepo) (g : DotGraph) (gn : String)
      (out : String) (g2 : DotGraph) (f2 : Bool) (t : String)
      (ts : List String),
      r.tags = t :: ts →
      dotDump render parse fuel r g gn false = some (.ok (out, g2, f2)) →
      f2 = true ∧ ∃ fnd new, g2.nodes = g.nodes ++ fnd :: new ∧
        (∃ nm ns attrs0, split r.fullName = .ok (ns, nm) ∧
          fnd = (validDOT nm, setLabel nm ns attrs0 t)) ∧
        ∀ nd ∈ new, untaggedNode nd) ∧
    (∀ (nd : String × List (String × String)) (nm ns : String)
      (attrs0 : List (String × String)) (t : String), t ≠ "" →
      nd = (validDOT nm, setLabel nm ns attrs0 t) → ¬ untaggedNode nd) :=
  ⟨dotDump_fired render parse, dotDump_unfired render parse,
   fun nd nm ns attrs0 t ht hnd =>
     setLabel_tagged_not_untagged nd nm ns attrs0 t ht hnd⟩

/-- Witness for C9: rendering the first fixture tree with the flag unset
labels its node with the tag `v`; rendering a second, different tree with
the returned fired flag adds only untagged nodes; and the first, tagged
node does not count as untagged. -/
theorem C9_one_shot_tag_label_witness :
    (true = true ∧ ∃ fnd new,
      (addNodeG wg0 (validDOT "a")
        (setLabel "a" "ns" (setTag "v" []) "v")).nodes =
        wg0.nodes ++ fnd :: new ∧
      (∃ nm ns attrs0, split wtreeA.fullName = .ok (ns, nm) ∧
        fnd = (validDOT nm, setLabel nm ns attrs0 "v")) ∧
      ∀ nd ∈ new, untaggedNode nd) ∧
    (true = true ∧ ∃ new,
      (addNodeG (addNodeG wg0 (validDOT "a")
          (setLabel "a" "ns" (setTag "v" []) "v"))
        (validDOT "b") (setLabel "b" "ns" (setTag "w" []) "")).nodes =
        (addNodeG wg0 (validDOT "a")
          (setLabel "a" "ns" (setTag "v" []) "v")).nodes ++ new ∧
      ∀ nd ∈ new, untaggedNode nd) ∧
    ¬ untaggedNode (validDOT "a", setLabel "a" "ns" (setTag "v" []) "v") :=
  ⟨(C9_one_shot_tag_label wrender wparse).2.1 1 wtreeA wg0 "g" "digraph g"
    (addNodeG wg0 (validDOT "a") (setLabel "a" "ns" (setTag "v" []) "v"))
    true "v" [] rfl rfl,
   (C9_one_shot_tag_label wrender wparse).1 1 wtreeB
    (addNodeG wg0 (validDOT "a") (setLabel "a" "ns" (setTag "v" []) "v"))
    "g" "digraph g"
    (addNodeG (addNodeG wg0 (validDOT "a")
        (setLabel "a" "ns" (setTag "v" []) "v"))
      (validDOT "b") (setLabel "b" "ns" (setTag "w" []) ""))
    true rfl,
   (C9_one_shot_tag_label wrender wparse).2.2
    (validDOT "a", setLabel "a" "ns" (setTag "v" []) "v") "a" "ns"
    (setTag "v" []) "v" (by decide) rfl⟩
